import Mathlib

/-!
# Distributed locks over a shared key-value store (package lockutil)

A shallow embedding of `lockutil/lock.go`: the key formatter `FormatKey`, the
exclusive lock (`Lock`, `LockWait`, `UnLock`), the counting lock (`LockNum`,
`LockNumWait`) and the server-side script `redisLua`.

Conventions of the embedding.

* A Go `string` is a Lean `String` (valid UTF-8 text), a Go `int` and a
  `time.Duration` (nanoseconds) are `Int`.
* The `float64` values of `Duration.Seconds` and of the script's arithmetic are
  computed as IEEE 754 computes them (namespace `Float64`).
* The Redis client is an interface `Runtime σ` of state-passing functions over
  a state `σ`; every call yields `Except Err reply` and the state it leaves.
  A Go `panic(err)` is the result `.error err`.
* The unbounded polling loops of `LockWait` and `LockNumWait` take a bound on
  the number of attempts and answer `none` when the bound is used up.
* Time is explicit: a `World` carries the store and the current instant in
  nanoseconds; an entry is visible while the instant is before its expiry.
-/

namespace Lockutil

/-! ## `fmt.Sprintf` called with a format and no operands -/

namespace Fmt

/-- State of the printer `pp` that a call without operands can reach: the output
buffer and the two flags about argument indices. -/
structure PP where
  buf : List Char
  reordered : Bool
  goodArgNum : Bool
deriving DecidableEq, Repr

def percentBangString : List Char := "%!".data
def missingString : List Char := "(MISSING)".data
def badIndexString : List Char := "(BADINDEX)".data
def noVerbString : List Char := "%!(NOVERB)".data
def badWidthString : List Char := "%!(BADWIDTH)".data
def badPrecString : List Char := "%!(BADPREC)".data

/-- Go `tooLarge`: the bound `1e6` on widths, precisions and argument numbers. -/
def tooLarge (x : Int) : Bool := x > 1000000 || x < -1000000

/-- Loop of `parsenum` over the slice that is left, with the digits read so far. -/
def parsenumLoop : List Char → Int → Bool → Int × Bool × List Char
  | [], num, isnum => (num, isnum, [])
  | c :: rest, num, isnum =>
    if '0' ≤ c ∧ c ≤ '9' then
      if tooLarge num then (0, false, [])
      else parsenumLoop rest (num * 10 + ((c.toNat : Int) - ('0'.toNat : Int))) true
    else (num, isnum, c :: rest)

/-- Go `parsenum(s, start, end)` on the slice `s[start:end]`: the number, whether
there was one, and the part of the slice after it. An empty slice and a number
above the bound both answer `(0, false, end)`, which is the empty rest. -/
def parsenum (s : List Char) : Int × Bool × List Char :=
  match s with
  | [] => (0, false, [])
  | _ => parsenumLoop s 0 false

/-- Length of a text in bytes, as Go `len` counts it. -/
def byteLen (s : List Char) : Nat := (s.map Char.utf8Size).sum

/-- The characters before the first `]` and those after it. -/
def splitClose : List Char → Option (List Char × List Char)
  | [] => none
  | c :: rest =>
    if c = ']' then some ([], rest)
    else match splitClose rest with
      | none => none
      | some (inner, after) => some (c :: inner, after)

/-- Go `parseArgNumber(format)` for a `format` that starts with `[`: the index,
the format after the `wid` bytes the call consumes, and `ok`. -/
def parseArgNumber (format : List Char) : Int × List Char × Bool :=
  if byteLen format < 3 then (0, format.drop 1, false)
  else match splitClose (format.drop 1) with
    | none => (0, format.drop 1, false)
    | some (inner, after) =>
      match parsenum inner with
      | (width, ok, rest) =>
        if !ok || rest ≠ [] then (0, after, false)
        else (width - 1, after, true)

/-- Go `(*pp).argNumber(argNum, format, i, numArgs)` on the format from `i` on. -/
def argNumber (p : PP) (argNum : Int) (format : List Char) (numArgs : Int) :
    PP × Int × List Char × Bool :=
  match format with
  | '[' :: _ =>
    let p := { p with reordered := true }
    match parseArgNumber format with
    | (index, rest, ok) =>
      if ok && decide (0 ≤ index) && decide (index < numArgs) then (p, index, rest, true)
      else ({ p with goodArgNum := false }, argNum, rest, ok)
  | _ => (p, argNum, format, false)

/-- The flag characters the loop `simpleFormat` steps over. With no operand the
fast path for a lower-case verb is never taken. -/
def isFlag (c : Char) : Bool :=
  c = '#' || c = '0' || c = '+' || c = '-' || c = ' '

/-- Width of a verb: `*` asks for an operand that is not there (`intFromArg`
finds none), otherwise a number is read. Answers the printer, the rest of the
format and `afterIndex`. -/
def doWidth (p : PP) (format : List Char) (afterIndex : Bool) : PP × List Char × Bool :=
  match format with
  | '*' :: rest => ({ p with buf := p.buf ++ badWidthString }, rest, false)
  | _ =>
    match parsenum format with
    | (_, widPresent, rest) =>
      (if afterIndex && widPresent then { p with goodArgNum := false } else p, rest, afterIndex)

/-- Precision of a verb: a `.` that is not the last byte of the format
(`i+1 < end && format[i] == '.'`) and what follows it. -/
def doPrec (p : PP) (argNum : Int) (format : List Char) (afterIndex : Bool) :
    PP × Int × List Char × Bool :=
  match format with
  | '.' :: c :: tail =>
    let rest := c :: tail
    let p := if afterIndex then { p with goodArgNum := false } else p
    match argNumber p argNum rest 0 with
    | (p, argNum, rest, afterIndex) =>
      match rest with
      | '*' :: rest => ({ p with buf := p.buf ++ badPrecString }, argNum, rest, false)
      | _ =>
        match parsenum rest with
        | (_, _, rest) => (p, argNum, rest, afterIndex)
  | _ => (p, argNum, format, afterIndex)

/-- The part of one turn of `formatLoop` between the `%` and the verb: flags,
argument index, width, precision, argument index. Answers the printer and the
format from the verb on. -/
def scanSpec (p : PP) (format : List Char) : PP × List Char :=
  let format := format.dropWhile isFlag
  match argNumber p 0 format 0 with
  | (p, argNum, format, afterIndex) =>
    match doWidth p format afterIndex with
    | (p, format, afterIndex) =>
      match doPrec p argNum format afterIndex with
      | (p, argNum, format, afterIndex) =>
        if !afterIndex then
          match argNumber p argNum format 0 with
          | (p, _, format, _) => (p, format)
        else (p, format)

/-- Go `(*pp).doPrintf(format, a)` with `len(a) = 0`. One unit of `fuel` is one
turn of `formatLoop`. -/
def doPrintf : Nat → List Char → PP → Option PP
  | 0, _, _ => none
  | fuel + 1, format, p =>
    let p := { p with goodArgNum := true }
    let p := { p with buf := p.buf ++ format.takeWhile (fun c => c ≠ '%') }
    match format.dropWhile (fun c => c ≠ '%') with
    | [] => some p
    | _ :: format =>
      match scanSpec p format with
      | (p, format) =>
        match format with
        | [] => some { p with buf := p.buf ++ noVerbString }
        | verb :: format =>
          if verb = '%' then
            doPrintf fuel format { p with buf := p.buf ++ ['%'] }
          else if !p.goodArgNum then
            doPrintf fuel format
              { p with buf := p.buf ++ percentBangString ++ [verb] ++ badIndexString }
          else
            doPrintf fuel format
              { p with buf := p.buf ++ percentBangString ++ [verb] ++ missingString }

/-- Go `fmt.Sprintf(format)` with no operands. Every turn of the loop consumes a
`%`, so one turn more than the length of the format is always enough
(`doPrintf_isSome`). -/
def Sprintf (format : String) : String :=
  match doPrintf (format.data.length + 1) format.data ⟨[], false, true⟩ with
  | some p => String.mk p.buf
  | none => ""

end Fmt

/-! ## Binary floating point

The values `lock.go` and its script compute in `float64` are all of the form
`k / 2^82` with `k` a natural number, up to sign: whole numbers in the script,
and seconds with a fraction of at least `2^-30` in `Duration.Seconds`. They are
kept here as the natural numbers `k`, or as whole numbers, and rounded as IEEE
754 rounds them: to 53 significant bits, to the nearest, ties to even. -/

namespace Float64

/-- Number of binary digits of `n`, counted by halving; `fuel` bounds the number
of halvings. -/
def bitLenAux : Nat → Nat → Nat
  | 0, _ => 0
  | fuel + 1, n => if n = 0 then 0 else bitLenAux fuel (n / 2) + 1

/-- Number of binary digits of `n`: the `L` with `2^(L-1) ≤ n < 2^L`, and 0 for 0. -/
def bitLen (n : Nat) : Nat := bitLenAux n n

/-- The multiple of `2^e` nearest to the quotient `a / b`, a tie going to the even
multiple. -/
def roundHalfEven (a b e : Nat) : Nat :=
  let unit := b * 2 ^ e
  let q := a / unit
  let r := a % unit
  if 2 * r < unit then q * 2 ^ e
  else if unit < 2 * r then (q + 1) * 2 ^ e
  else if q % 2 = 0 then q * 2 ^ e else (q + 1) * 2 ^ e

/-- The quotient `a / b` rounded to 53 significant bits, for a quotient of at
least `2^52` or a whole quotient below `2^53`: the spacing of the `float64`
values around a number of `L` binary digits is `2^(L-53)`. -/
def round (a b : Nat) : Nat := roundHalfEven a b (bitLen (a / b) - 53)

/-- The `float64` nearest to the whole number `x`; it is a whole number. -/
def ofInt (x : Int) : Int :=
  if 0 ≤ x then (round x.toNat 1 : Nat) else -((round (-x).toNat 1 : Nat) : Int)

/-- Go `Duration.Seconds` on `d ≥ 0` nanoseconds,
`float64(sec) + float64(nsec)/1e9` with `sec = d / Second` and
`nsec = d % Second`, in units of `2^-82` seconds: the quotient is rounded, and
the sum is rounded. -/
def seconds (d : Nat) : Nat :=
  round ((d / 1000000000) * 2 ^ 82 + round ((d % 1000000000) * 2 ^ 82) 1000000000) 1

/-- Go `math.Round` on a value `x ≥ 0` in units of `2^-82`: the nearest whole
number, halves up. -/
def mathRound (x : Nat) : Nat := (x + 2 ^ 81) / 2 ^ 82

end Float64

/-! ## The Redis client, as the package uses it -/

/-- An error value of the Redis client. -/
abbrev Err := String

deriving instance DecidableEq for Except

/-- The calls the package makes: `SetNX(ctx, key, value, expiration).Result()`,
`Del(ctx, key).Result()`, `Eval(ctx, script, keys, args...).Int()` and
`time.Sleep(d)`. Each call takes the state before it and gives the reply, or the
error, together with the state after it. -/
structure Runtime (σ : Type) where
  SetNX : String → Int → Int → σ → Except Err Bool × σ
  Del : String → σ → Except Err Int × σ
  Eval : String → List String → List Int → σ → Except Err Int × σ
  Sleep : Int → σ → σ

/-- Go `RedisDistributedLock`: the client and the key namespace. -/
structure RedisDistributedLock (σ : Type) where
  Redis : Runtime σ
  Prefix : String

/-- Go `time.Millisecond`, in nanoseconds. -/
def Millisecond : Int := 1000000

/-- Go `time.Second`, in nanoseconds. -/
def Second : Int := 1000000000

/-- The script `redisLua` that `LockNum` sends to the store. -/
def redisLua : String :=
  "local num = redis.pcall(\"GET\",KEYS[1])\nif num == false then\nredis.pcall(\"SETEX\",KEYS[1],ARGV[2],ARGV[1]-1)\nreturn 1\nelseif tonumber(num) <= 0 then\nreturn 0\nelse\nredis.pcall(\"DECR\",KEYS[1])\nreturn 1\nend"

/-- Go `int(math.Round(expireIn.Seconds()))`, computed in `float64` as the source
does. Division, remainder, the IEEE operations and `math.Round` all commute with
a change of sign, so a negative duration is the mirror image of its absolute
value. -/
def roundSeconds (expireIn : Int) : Int :=
  if 0 ≤ expireIn then (Float64.mathRound (Float64.seconds expireIn.toNat) : Nat)
  else -((Float64.mathRound (Float64.seconds (-expireIn).toNat) : Nat) : Int)

/-- The duration rounded to the nearest whole second in exact arithmetic, halves
away from zero: what `roundSeconds` is meant to be. -/
def nearestSecond (expireIn : Int) : Int :=
  if 0 ≤ expireIn then (expireIn + 500000000) / 1000000000
  else -((-expireIn + 500000000) / 1000000000)

section Code

variable {σ : Type}

/-- Go `FormatKey`: `fmt.Sprintf(lock.Prefix + key)`. The concatenation is the
format string and there are no operands. -/
def FormatKey (lock : RedisDistributedLock σ) (key : String) : String :=
  Fmt.Sprintf (lock.Prefix ++ key)

/-- Go `Lock`. -/
def Lock (lock : RedisDistributedLock σ) (key : String) (expireIn : Int) (s : σ) :
    Except Err Bool × σ :=
  let key := FormatKey lock key
  match lock.Redis.SetNX key 1 expireIn s with
  | (.error err, s) => (.error err, s)
  | (.ok ok, s) => if !ok then (.ok false, s) else (.ok true, s)

/-- The loop `for !attempt() { time.Sleep(time.Millisecond * 100) }` shared by
`LockWait` and `LockNumWait`; `fuel` bounds the number of attempts. -/
def waitLoop (lock : RedisDistributedLock σ) (attempt : σ → Except Err Bool × σ) :
    Nat → σ → Option (Except Err Unit × σ)
  | 0, _ => none
  | fuel + 1, s =>
    match attempt s with
    | (.error err, s) => some (.error err, s)
    | (.ok true, s) => some (.ok (), s)
    | (.ok false, s) => waitLoop lock attempt fuel (lock.Redis.Sleep (Millisecond * 100) s)

/-- Go `LockWait`: the key is formatted, and the formatted key is handed to
`Lock`. -/
def LockWait (lock : RedisDistributedLock σ) (key : String) (expireIn : Int) (fuel : Nat)
    (s : σ) : Option (Except Err Unit × σ) :=
  let key := FormatKey lock key
  waitLoop lock (Lock lock key expireIn) fuel s

/-- Go `UnLock`. -/
def UnLock (lock : RedisDistributedLock σ) (key : String) (s : σ) : Except Err Unit × σ :=
  let key := FormatKey lock key
  match lock.Redis.Del key s with
  | (.error err, s) => (.error err, s)
  | (.ok _, s) => (.ok (), s)

/-- Go `LockNum`. -/
def LockNum (lock : RedisDistributedLock σ) (key : String) (num : Int) (expireIn : Int)
    (s : σ) : Except Err Bool × σ :=
  let key := FormatKey lock key
  match lock.Redis.Eval redisLua [key] [num, roundSeconds expireIn] s with
  | (.error err, s) => (.error err, s)
  | (.ok result, s) => (.ok (decide (result = 1)), s)

/-- Go `LockNumWait`: the key is formatted, and the formatted key is handed to
`LockNum`. -/
def LockNumWait (lock : RedisDistributedLock σ) (key : String) (num : Int) (expireIn : Int)
    (fuel : Nat) (s : σ) : Option (Except Err Unit × σ) :=
  let key := FormatKey lock key
  waitLoop lock (LockNum lock key num expireIn) fuel s

end Code

/-! ## The store -/

/-- Modelled from the spec: the value the store holds under a key, a text.
`int i` is the decimal text of the whole number `i`: the sentinel `1` of the
exclusive lock, or a counter. `float d` is the text in exponent form, such as
`9.2233720368547758e+18`, that the store writes for a number `d` of the script
with more than 17 digits; the script reads it back as `d`, and `DECR` does not
take it for an integer. -/
inductive Val where
  | int (i : Int)
  | float (d : Int)
deriving DecidableEq, Repr

/-- Modelled from the spec: a lock record of the store, which is not part of the
repository. `expireAt` is the instant, in nanoseconds, from which the record is
gone (`none`: it never expires). -/
structure Entry where
  val : Val
  expireAt : Option Int
deriving DecidableEq, Repr

/-- The whole number a stored text stands for. -/
def Val.asInt : Val → Int
  | .int i => i
  | .float d => d

/-- Lua `tonumber` on a stored text: the `float64` nearest to the number the text
stands for. -/
def Val.toNumber (v : Val) : Int := Float64.ofInt v.asInt

/-- The text the store writes for a number argument of the script, `%.17g` of a
`float64` with a whole value: all the digits when there are at most 17, the
exponent form from `1e+17` on. -/
def formatG17 (d : Int) : Val :=
  if d.natAbs < 100000000000000000 then .int d else .float d

/-- Go `math.MaxInt64`, the largest integer `DECR` reads. -/
def MaxInt64 : Int := 9223372036854775807

/-- Go `math.MinInt64`, the smallest integer `DECR` reads. -/
def MinInt64 : Int := -9223372036854775808

/-- Modelled from the spec: the store, a map from keys to records. -/
abbrev Store := String → Option Entry

/-- Modelled from the spec: the store together with the current instant. -/
structure World where
  store : Store
  now : Int

/-- A record is visible strictly before its expiry. -/
def Entry.alive (e : Entry) (now : Int) : Bool :=
  match e.expireAt with
  | none => true
  | some t => decide (now < t)

/-- The record a reader finds under `key` at the instant `now`. -/
def Store.get (s : Store) (now : Int) (key : String) : Option Entry :=
  match s key with
  | none => none
  | some e => if e.alive now then some e else none

def Store.put (s : Store) (key : String) (e : Entry) : Store :=
  fun k => if k = key then some e else s k

def Store.erase (s : Store) (key : String) : Store :=
  fun k => if k = key then none else s k

def emptyStore : Store := fun _ => none

/-- The same store at the instant `t`. -/
def World.atTime (w : World) (t : Int) : World := { w with now := t }

/-- Modelled from the spec: the atomic set-if-absent with expiry of the store
(§4.1): the record is created, expiring `expiration` nanoseconds from now, only
if no record is visible under the key. The conversion of the duration to the
units of the wire protocol is not part of this model. -/
def cmdSETNX (key : String) (value : Int) (expiration : Int) (w : World) : Bool × World :=
  match w.store.get w.now key with
  | some _ => (false, w)
  | none =>
    (true, { w with store := w.store.put key ⟨.int value, some (w.now + expiration)⟩ })

/-- Modelled from the spec: deletion of a key (§4.1, Release); the reply is the
number of keys that were removed. -/
def cmdDEL (key : String) (w : World) : Int × World :=
  ((if (w.store.get w.now key).isSome then 1 else 0), { w with store := w.store.erase key })

/-- Modelled from the spec: `GET` of the script; `none` is the `false` the
script sees for an absent key. -/
def cmdGET (key : String) (w : World) : Option Val :=
  (w.store.get w.now key).map Entry.val

/-- Modelled from the spec: `SETEX key seconds value`. The store rejects an
expiry that is not positive, and writes nothing then. -/
def cmdSETEX (key : String) (seconds : Int) (value : Val) (w : World) : Except Err Unit × World :=
  if seconds ≤ 0 then (.error "ERR invalid expire time in setex", w)
  else (.ok (), { w with store := w.store.put key ⟨value, some (w.now + seconds * Second)⟩ })

/-- Modelled from the spec: `DECR key`: the counter goes down by one and keeps
its expiry; an absent key counts as `0` and is created without expiry. The
store refuses a text that is not a 64-bit integer, and a decrement that would
leave the 64-bit range, and writes nothing then. -/
def cmdDECR (key : String) (w : World) : Except Err Int × World :=
  match w.store.get w.now key with
  | none => (.ok (-1), { w with store := w.store.put key ⟨.int (-1), none⟩ })
  | some e =>
    match e.val with
    | .int i =>
      if MinInt64 < i ∧ i ≤ MaxInt64 then
        (.ok (i - 1), { w with store := w.store.put key ⟨.int (i - 1), e.expireAt⟩ })
      else (.error "ERR value is not an integer or out of range", w)
    | .float _ => (.error "ERR value is not an integer or out of range", w)

/-- The script `redisLua` on `KEYS[1]`, `ARGV[1]`, `ARGV[2]`, run as one step.
The arguments arrive as the decimal texts of the Go integers. `ARGV[1]-1` is
arithmetic on Lua numbers: the text is read as a `float64`, one is subtracted in
`float64`, and the store writes the result as `formatG17` prints it. `ARGV[2]`
goes to `SETEX` as it came. `redis.pcall` hands an error of a command back as a
value, which the script drops. -/
def evalRedisLua (KEYS1 : String) (ARGV1 ARGV2 : Int) (w : World) : Int × World :=
  match cmdGET KEYS1 w with
  | none =>
    (1, (cmdSETEX KEYS1 ARGV2 (formatG17 (Float64.ofInt (Float64.ofInt ARGV1 - 1))) w).2)
  | some num =>
    if num.toNumber ≤ 0 then (0, w)
    else (1, (cmdDECR KEYS1 w).2)

/-- The step of the counting lock in the words of the specification, written
directly on the map: an absent key gets the value `num - 1` with an expiry of
`seconds` seconds and the answer is true; a value that is at most 0 gives false
and changes nothing; any other value goes down by one, keeps its expiry, and
the answer is true. -/
def lockNumStep (key : String) (num seconds : Int) (w : World) : Bool × World :=
  match w.store.get w.now key with
  | none =>
    (true, ⟨fun k => if k = key then some ⟨.int (num - 1), some (w.now + seconds * Second)⟩
      else w.store k, w.now⟩)
  | some e =>
    if e.val.asInt ≤ 0 then (false, w)
    else (true, ⟨fun k => if k = key then some ⟨.int (e.val.asInt - 1), e.expireAt⟩
      else w.store k, w.now⟩)

/-- Modelled from the spec: a store that always answers. It runs `redisLua` and
no other script, and sleeping moves the clock. -/
def memRedis : Runtime World where
  SetNX := fun key value expiration w =>
    match cmdSETNX key value expiration w with
    | (ok, w) => (.ok ok, w)
  Del := fun key w =>
    match cmdDEL key w with
    | (n, w) => (.ok n, w)
  Eval := fun script keys args w =>
    if script = redisLua then
      match keys, args with
      | [key], [a1, a2] =>
        match evalRedisLua key a1 a2 w with
        | (r, w) => (.ok r, w)
      | _, _ => (.error "ERR wrong number of arguments", w)
    else (.error "NOSCRIPT", w)
  Sleep := fun d w => { w with now := w.now + d }

/-- A coordinator over the in-memory store. -/
def coordinator (pfx : String) : RedisDistributedLock World := ⟨memRedis, pfx⟩

/-- A store that answers "held" to the first `okCalls` calls and fails from then
on; the state counts the calls made. -/
def flakyRedis (okCalls : Nat) : Runtime Nat where
  SetNX := fun _ _ _ s =>
    if s < okCalls then (.ok false, s + 1) else (.error "connection refused", s + 1)
  Del := fun _ s => (.error "connection refused", s + 1)
  Eval := fun _ _ _ s =>
    if s < okCalls then (.ok 0, s + 1) else (.error "connection refused", s + 1)
  Sleep := fun _ s => s

/-! ## Sequences of calls -/

/-- The state in which attempt number `i` (from 0) of a polling loop starts, when
the attempts before it were all denied. -/
def attemptState {σ : Type} (lock : RedisDistributedLock σ) (attempt : σ → Except Err Bool × σ) :
    Nat → σ → σ
  | 0, s => s
  | i + 1, s => attemptState lock attempt i (lock.Redis.Sleep (Millisecond * 100) (attempt s).2)

/-- A reply that grants the lock. -/
def granted (r : Except Err Bool) : Bool :=
  match r with
  | .ok true => true
  | _ => false

/-- A reply that denies the lock. -/
def denied (r : Except Err Bool) : Bool :=
  match r with
  | .ok false => true
  | _ => false

/-- The calls `Lock(key, ttl)` made one after the other at the instants `times`;
the replies in order, and the world after the last call. -/
def runLock (lock : RedisDistributedLock World) (key : String) (ttl : Int) :
    List Int → World → List (Except Err Bool) × World
  | [], w => ([], w)
  | t :: ts, w =>
    match Lock lock key ttl (w.atTime t) with
    | (r, w) =>
      match runLock lock key ttl ts w with
      | (rs, w) => (r :: rs, w)

/-- One call of the counting lock: its capacity, its ttl and its instant. -/
structure NumCall where
  num : Int
  ttl : Int
  time : Int

/-- The calls `LockNum(key, c.num, c.ttl)` made one after the other at the
instants `c.time`. -/
def runLockNum (lock : RedisDistributedLock World) (key : String) :
    List NumCall → World → List (Except Err Bool) × World
  | [], w => ([], w)
  | c :: cs, w =>
    match LockNum lock key c.num c.ttl (w.atTime c.time) with
    | (r, w) =>
      match runLockNum lock key cs w with
      | (rs, w) => (r :: rs, w)

end Lockutil

namespace Lockutil

namespace Fmt

/-! ### Every scanner leaves a suffix no longer than its input -/

theorem parsenumLoop_length (s : List Char) (num : Int) (isnum : Bool) :
    (parsenumLoop s num isnum).2.2.length ≤ s.length := by
  induction s generalizing num isnum with
  | nil => simp [parsenumLoop]
  | cons c rest ih =>
    unfold parsenumLoop
    split
    · split
      · simp
      · exact Nat.le_succ_of_le (ih _ _)
    · simp

theorem parsenum_length (s : List Char) : (parsenum s).2.2.length ≤ s.length := by
  cases s with
  | nil => simp [parsenum]
  | cons c rest => exact parsenumLoop_length _ _ _

theorem splitClose_length (s inner after : List Char) (h : splitClose s = some (inner, after)) :
    after.length ≤ s.length := by
  induction s generalizing inner after with
  | nil => simp [splitClose] at h
  | cons c rest ih =>
    unfold splitClose at h
    split at h
    · simp only [Option.some.injEq, Prod.mk.injEq] at h
      rw [← h.2]; simp
    · split at h
      · simp at h
      · rename_i i a hs
        simp only [Option.some.injEq, Prod.mk.injEq] at h
        rw [← h.2]
        exact Nat.le_succ_of_le (ih i a hs)

theorem parseArgNumber_length (format : List Char) :
    (parseArgNumber format).2.1.length ≤ format.length := by
  unfold parseArgNumber
  split
  · simp
  · split
    · simp
    · rename_i inner after hs
      have h1 := splitClose_length _ _ _ hs
      have h2 : after.length ≤ format.length := by
        have := List.length_drop 1 format
        omega
      split
      split <;> simpa using h2

theorem argNumber_length (p : PP) (argNum : Int) (format : List Char) (numArgs : Int) :
    (argNumber p argNum format numArgs).2.2.1.length ≤ format.length := by
  unfold argNumber
  split
  · rename_i rest
    have h := parseArgNumber_length ('[' :: rest)
    generalize parseArgNumber ('[' :: rest) = r at h ⊢
    obtain ⟨index, rest2, ok⟩ := r
    simp only at h ⊢
    split <;> simpa using h
  · simp

theorem doWidth_length (p : PP) (format : List Char) (afterIndex : Bool) :
    (doWidth p format afterIndex).2.1.length ≤ format.length := by
  unfold doWidth
  split
  · simp
  · exact parsenum_length format

theorem doPrec_length (p : PP) (argNum : Int) (format : List Char) (afterIndex : Bool) :
    (doPrec p argNum format afterIndex).2.2.1.length ≤ format.length := by
  unfold doPrec
  split
  · rename_i c tail
    simp only
    generalize (if afterIndex = true then ({ p with goodArgNum := false } : PP) else p) = p0
    have h1 := argNumber_length p0 argNum (c :: tail) 0
    generalize argNumber p0 argNum (c :: tail) 0 = r at h1 ⊢
    obtain ⟨p1, a1, f1, i1⟩ := r
    simp only [List.length_cons] at h1 ⊢
    split
    · simp only [List.length_cons] at h1 ⊢
      omega
    · have h2 := parsenum_length f1
      generalize parsenum f1 = r2 at h2 ⊢
      obtain ⟨n2, b2, f2⟩ := r2
      simp only at h2 ⊢
      omega
  · simp

theorem scanSpec_length (p : PP) (format : List Char) :
    (scanSpec p format).2.length ≤ format.length := by
  unfold scanSpec
  simp only
  have h0 : (format.dropWhile isFlag).length ≤ format.length :=
    (List.dropWhile_sublist _).length_le
  have h1 := argNumber_length p 0 (format.dropWhile isFlag) 0
  generalize argNumber p 0 (format.dropWhile isFlag) 0 = r1 at h1 ⊢
  obtain ⟨p1, a1, f1, i1⟩ := r1
  have h2 := doWidth_length p1 f1 i1
  generalize doWidth p1 f1 i1 = r2 at h2 ⊢
  obtain ⟨p2, f2, i2⟩ := r2
  have h3 := doPrec_length p2 a1 f2 i2
  generalize doPrec p2 a1 f2 i2 = r3 at h3 ⊢
  obtain ⟨p3, a3, f3, i3⟩ := r3
  simp only at h1 h2 h3 ⊢
  split
  · have h4 := argNumber_length p3 a3 f3 0
    generalize argNumber p3 a3 f3 0 = r4 at h4 ⊢
    obtain ⟨p4, a4, f4, i4⟩ := r4
    simp only at h4 ⊢
    omega
  · simp only
    omega

/-- Totality of the model of `doPrintf`: a bound above the length of the format
is never used up. -/
theorem doPrintf_isSome (fuel : Nat) (format : List Char) (p : PP)
    (h : format.length < fuel) : (doPrintf fuel format p).isSome = true := by
  induction fuel generalizing format p with
  | zero => omega
  | succ n ih =>
    unfold doPrintf
    simp only
    have hd : (format.dropWhile (fun c => decide (c ≠ '%'))).length ≤ format.length :=
      (List.dropWhile_sublist _).length_le
    split
    · rfl
    · rename_i c rest heq
      rw [heq] at hd
      simp only [List.length_cons] at hd
      have h1 := scanSpec_length
        { p with buf := p.buf ++ format.takeWhile (fun c => decide (c ≠ '%')),
                 goodArgNum := true } rest
      generalize scanSpec
        { p with buf := p.buf ++ format.takeWhile (fun c => decide (c ≠ '%')),
                 goodArgNum := true } rest = r at h1 ⊢
      obtain ⟨p1, f1⟩ := r
      simp only at h1 ⊢
      cases f1 with
      | nil => rfl
      | cons verb f2 =>
        simp only [List.length_cons] at h1
        have hlt : f2.length < n := by omega
        simp only
        split
        · exact ih _ _ hlt
        · split
          · exact ih _ _ hlt
          · exact ih _ _ hlt

/-- The printer always finishes within the bound `Sprintf` gives it. -/
theorem Sprintf_eq (format : String) :
    ∃ p, doPrintf (format.data.length + 1) format.data ⟨[], false, true⟩ = some p ∧
      Sprintf format = String.mk p.buf := by
  have h := doPrintf_isSome (format.data.length + 1) format.data ⟨[], false, true⟩
    (Nat.lt_succ_self _)
  obtain ⟨p, hp⟩ := Option.isSome_iff_exists.mp h
  exact ⟨p, hp, by simp only [Sprintf, hp]⟩

theorem doPrintf_no_percent (fuel : Nat) (format : List Char) (p : PP)
    (h : '%' ∉ format) :
    doPrintf (fuel + 1) format p = some { p with buf := p.buf ++ format, goodArgNum := true } := by
  have ht : format.takeWhile (fun c => decide (c ≠ '%')) = format := by
    rw [List.takeWhile_eq_self_iff]
    intro c hc
    simp only [ne_eq, decide_not, Bool.not_eq_eq_eq_not, Bool.not_true, decide_eq_false_iff_not]
    rintro rfl
    exact h hc
  have hd : format.dropWhile (fun c => decide (c ≠ '%')) = [] := by
    rw [List.dropWhile_eq_nil_iff]
    intro c hc
    simp only [ne_eq, decide_not, Bool.not_eq_eq_eq_not, Bool.not_true, decide_eq_false_iff_not]
    rintro rfl
    exact h hc
  unfold doPrintf
  simp only [ht, hd]

/-- A format without `%` is printed as it stands. -/
theorem Sprintf_no_percent (format : String) (h : '%' ∉ format.data) :
    Sprintf format = format := by
  unfold Sprintf
  rw [doPrintf_no_percent _ _ _ h]
  simp

end Fmt

end Lockutil

namespace Lockutil

namespace Float64

/-! ### Binary digits and rounding -/

theorem bitLenAux_le (fuel n k : Nat) (hf : n ≤ fuel) (h : n < 2 ^ k) :
    bitLenAux fuel n ≤ k := by
  induction fuel generalizing n k with
  | zero => simp [bitLenAux]
  | succ f ih =>
    unfold bitLenAux
    split
    · exact Nat.zero_le _
    · rename_i hn
      cases k with
      | zero =>
        simp only [pow_zero, Nat.lt_one_iff] at h
        exact absurd h hn
      | succ k =>
        have h2 : n / 2 < 2 ^ k := by
          rw [Nat.div_lt_iff_lt_mul (by decide)]
          rw [pow_succ] at h
          exact h
        have := ih (n / 2) k (by omega) h2
        omega

theorem bitLen_le (n k : Nat) (h : n < 2 ^ k) : bitLen n ≤ k :=
  bitLenAux_le n n k (Nat.le_refl _) h

theorem pow_bitLenAux_le (fuel n : Nat) (hf : n ≤ fuel) (hn : 0 < n) :
    2 ^ (bitLenAux fuel n - 1) ≤ n := by
  induction fuel generalizing n with
  | zero => omega
  | succ f ih =>
    unfold bitLenAux
    have hn0 : n ≠ 0 := by omega
    simp only [hn0, ↓reduceIte, Nat.add_sub_cancel]
    by_cases h1 : n / 2 = 0
    · have : bitLenAux f (n / 2) = 0 := by
        rw [h1]
        cases f <;> simp [bitLenAux]
      rw [this]
      simpa using hn
    · have hpos : 0 < n / 2 := Nat.pos_of_ne_zero h1
      have h := ih (n / 2) (by omega) hpos
      have hb : 1 ≤ bitLenAux f (n / 2) := by
        cases f with
        | zero => omega
        | succ g =>
          unfold bitLenAux
          simp [h1]
      have e : bitLenAux f (n / 2) = (bitLenAux f (n / 2) - 1) + 1 := by omega
      rw [e, pow_succ]
      have : 2 ^ (bitLenAux f (n / 2) - 1) * 2 ≤ n / 2 * 2 := Nat.mul_le_mul_right 2 h
      have h3 : n / 2 * 2 ≤ n := Nat.div_mul_le_self n 2
      omega

theorem pow_bitLen_le (n : Nat) (hn : 0 < n) : 2 ^ (bitLen n - 1) ≤ n :=
  pow_bitLenAux_le n n (Nat.le_refl _) hn

/-- The rounded value is within half a unit of the quotient. -/
theorem roundHalfEven_error (a b e : Nat) (hb : 0 < b) :
    2 * (roundHalfEven a b e * b) ≤ 2 * a + b * 2 ^ e ∧
      2 * a ≤ 2 * (roundHalfEven a b e * b) + b * 2 ^ e := by
  have hu : 0 < b * 2 ^ e := Nat.mul_pos hb (Nat.pos_pow_of_pos _ (by decide))
  have hdiv := Nat.div_add_mod a (b * 2 ^ e)
  have hmod := Nat.mod_lt a hu
  have e1 : a / (b * 2 ^ e) * 2 ^ e * b = b * 2 ^ e * (a / (b * 2 ^ e)) := by ring
  have e2 : (a / (b * 2 ^ e) + 1) * 2 ^ e * b = b * 2 ^ e * (a / (b * 2 ^ e)) + b * 2 ^ e := by
    ring
  unfold roundHalfEven
  simp only
  generalize b * 2 ^ e * (a / (b * 2 ^ e)) = m at hdiv e1 e2
  generalize a % (b * 2 ^ e) = r at hdiv hmod
  generalize hU : b * 2 ^ e = U at hdiv hmod e1 e2 hu
  split
  · rw [e1]
    omega
  · split
    · rw [e2]
      omega
    · split
      · rw [e1]
        omega
      · rw [e2]
        omega

/-- Rounding does not go below a multiple of the unit that the quotient reaches. -/
theorem roundHalfEven_ge (a b e m : Nat) (hb : 0 < b) (h : m * 2 ^ e * b ≤ a) :
    m * 2 ^ e ≤ roundHalfEven a b e := by
  have hu : 0 < b * 2 ^ e := Nat.mul_pos hb (Nat.pos_pow_of_pos _ (by decide))
  have hq : m ≤ a / (b * 2 ^ e) := by
    rw [Nat.le_div_iff_mul_le hu]
    calc m * (b * 2 ^ e) = m * 2 ^ e * b := by ring
      _ ≤ a := h
  have h1 : m * 2 ^ e ≤ a / (b * 2 ^ e) * 2 ^ e := Nat.mul_le_mul_right _ hq
  have h2 : a / (b * 2 ^ e) * 2 ^ e ≤ (a / (b * 2 ^ e) + 1) * 2 ^ e :=
    Nat.mul_le_mul_right _ (Nat.le_succ _)
  unfold roundHalfEven
  simp only
  split
  · exact h1
  · split
    · exact le_trans h1 h2
    · split
      · exact h1
      · exact le_trans h1 h2

theorem roundHalfEven_unit (a : Nat) : roundHalfEven a 1 0 = a := by
  simp [roundHalfEven, Nat.mod_one]

/-- A whole number below `2^53` is a `float64`. -/
theorem round_exact (a : Nat) (h : a < 2 ^ 53) : round a 1 = a := by
  unfold round
  have : bitLen (a / 1) - 53 = 0 := by
    have := bitLen_le (a / 1) 53 (by simpa using h)
    omega
  rw [this, roundHalfEven_unit]

/-- Rounding a positive whole number gives a positive number. -/
theorem round_pos (a : Nat) (h : 0 < a) : 0 < round a 1 := by
  unfold round
  have hl := pow_bitLen_le a h
  have hle : 2 ^ (bitLen (a / 1) - 53) ≤ 2 ^ (bitLen a - 1) := by
    rw [Nat.div_one]
    exact Nat.pow_le_pow_right (by decide) (by omega)
  have := roundHalfEven_ge a 1 (bitLen (a / 1) - 53) 1 (by decide)
    (by
      simp only [one_mul, mul_one]
      exact le_trans hle hl)
  have hp : 0 < 2 ^ (bitLen (a / 1) - 53) := Nat.pos_pow_of_pos _ (by decide)
  omega

theorem ofInt_exact (x : Int) (h1 : -9007199254740992 < x) (h2 : x < 9007199254740992) :
    ofInt x = x := by
  unfold ofInt
  split
  · rw [round_exact _ (by omega)]
    omega
  · rw [round_exact _ (by omega)]
    omega

theorem ofInt_nonpos_iff (x : Int) : ofInt x ≤ 0 ↔ x ≤ 0 := by
  unfold ofInt
  split
  · rename_i h
    constructor
    · intro h0
      by_contra hx
      have := round_pos x.toNat (by omega)
      omega
    · intro hx
      have : x.toNat = 0 := by omega
      rw [this]
      simp [round, roundHalfEven]
  · rename_i h
    constructor
    · intro _
      omega
    · intro _
      omega

end Float64

end Lockutil

namespace Lockutil

namespace Float64

/-! ### `Seconds` and `math.Round` below `2^24` seconds -/

theorem roundHalfEven_ge_pow (a b e k : Nat) (hb : 0 < b) (hk : e ≤ k) (m : Nat)
    (h : m * 2 ^ k * b ≤ a) : m * 2 ^ k ≤ roundHalfEven a b e := by
  have e1 : m * 2 ^ k = m * 2 ^ (k - e) * 2 ^ e := by
    rw [Nat.mul_assoc, ← pow_add, Nat.sub_add_cancel hk]
  rw [e1]
  apply roundHalfEven_ge _ _ _ _ hb
  rw [← e1]
  exact h

/-- For a duration shorter than `2^24` seconds the `float64` computation of
`math.Round(d.Seconds())` gives the nearest whole second, halves up. -/
theorem mathRound_seconds (d : Nat) (h : d < 16777216 * 1000000000) :
    mathRound (seconds d) = (d + 500000000) / 1000000000 := by
  have hdm := Nat.div_add_mod d 1000000000
  have hmod : d % 1000000000 < 1000000000 := Nat.mod_lt _ (by norm_num)
  have hsec : d / 1000000000 < 16777216 := by omega
  have p82 : (2 : Nat) ^ 82 = 4835703278458516698824704 := by norm_num
  have p81 : (2 : Nat) ^ 81 = 2417851639229258349412352 := by norm_num
  have p106 : (2 : Nat) ^ 106 = 81129638414606681695789005144064 := by norm_num
  have p53 : (2 : Nat) ^ 53 = 9007199254740992 := by norm_num
  have p29 : (2 : Nat) ^ 29 = 536870912 := by norm_num
  unfold mathRound seconds
  rw [p82, p81]
  -- the fraction
  have hq1 : d % 1000000000 * 4835703278458516698824704 / 1000000000
      < 2 ^ 82 := by
    rw [Nat.div_lt_iff_lt_mul (by norm_num), p82]
    omega
  have he1 : bitLen (d % 1000000000 * 4835703278458516698824704 / 1000000000) - 53 ≤ 29 := by
    have := bitLen_le _ 82 hq1
    omega
  have hU1 : 2 ^ (bitLen (d % 1000000000 * 4835703278458516698824704 / 1000000000) - 53)
      ≤ 536870912 := by
    rw [← p29]
    exact Nat.pow_le_pow_right (by norm_num) he1
  have hFerr := roundHalfEven_error (d % 1000000000 * 4835703278458516698824704) 1000000000
    (bitLen (d % 1000000000 * 4835703278458516698824704 / 1000000000) - 53) (by norm_num)
  have hFge : 500000000 ≤ d % 1000000000 →
      1 * 2 ^ 81 ≤ roundHalfEven (d % 1000000000 * 4835703278458516698824704) 1000000000
        (bitLen (d % 1000000000 * 4835703278458516698824704 / 1000000000) - 53) := by
    intro hn
    apply roundHalfEven_ge_pow _ _ _ 81 (by norm_num) (by omega)
    rw [p81]
    omega
  rw [p81] at hFge
  have hround1 : round (d % 1000000000 * 4835703278458516698824704) 1000000000 =
      roundHalfEven (d % 1000000000 * 4835703278458516698824704) 1000000000
        (bitLen (d % 1000000000 * 4835703278458516698824704 / 1000000000) - 53) := rfl
  rw [← hround1] at hFerr hFge
  generalize round (d % 1000000000 * 4835703278458516698824704) 1000000000 = F
    at hFerr hFge ⊢
  generalize 2 ^ (bitLen (d % 1000000000 * 4835703278458516698824704 / 1000000000) - 53) = U1
    at hFerr hU1
  have hF82 : F < 4835703278458516698824704 := by omega
  -- the sum
  have hS : (d / 1000000000 * 4835703278458516698824704 + F) / 1 < 2 ^ 106 := by
    rw [p106, Nat.div_one]
    omega
  have he2 : bitLen ((d / 1000000000 * 4835703278458516698824704 + F) / 1) - 53 ≤ 53 := by
    have := bitLen_le _ 106 hS
    omega
  have hU2 : 2 ^ (bitLen ((d / 1000000000 * 4835703278458516698824704 + F) / 1) - 53)
      ≤ 9007199254740992 := by
    rw [← p53]
    exact Nat.pow_le_pow_right (by norm_num) he2
  have hSerr := roundHalfEven_error (d / 1000000000 * 4835703278458516698824704 + F) 1
    (bitLen ((d / 1000000000 * 4835703278458516698824704 + F) / 1) - 53) (by norm_num)
  have hSge : 2417851639229258349412352 ≤ F →
      (2 * (d / 1000000000) + 1) * 2 ^ 81 ≤
        roundHalfEven (d / 1000000000 * 4835703278458516698824704 + F) 1
          (bitLen ((d / 1000000000 * 4835703278458516698824704 + F) / 1) - 53) := by
    intro hF
    apply roundHalfEven_ge_pow _ _ _ 81 (by norm_num) (by omega)
    rw [p81]
    omega
  rw [p81] at hSge
  have hround2 : round (d / 1000000000 * 4835703278458516698824704 + F) 1 =
      roundHalfEven (d / 1000000000 * 4835703278458516698824704 + F) 1
        (bitLen ((d / 1000000000 * 4835703278458516698824704 + F) / 1) - 53) := rfl
  rw [← hround2] at hSerr hSge
  generalize round (d / 1000000000 * 4835703278458516698824704 + F) 1 = S1
    at hSerr hSge ⊢
  generalize 2 ^ (bitLen ((d / 1000000000 * 4835703278458516698824704 + F) / 1) - 53) = U2
    at hSerr hU2
  by_cases hn : 500000000 ≤ d % 1000000000
  · have h1 := hFge hn
    have h2 := hSge h1
    have hl : (d + 500000000) / 1000000000 = d / 1000000000 + 1 := by omega
    have hlo : (d / 1000000000 + 1) * 4835703278458516698824704
        ≤ S1 + 2417851639229258349412352 := by omega
    have hhi : S1 + 2417851639229258349412352
        < (d / 1000000000 + 1 + 1) * 4835703278458516698824704 := by omega
    rw [hl]
    exact Nat.div_eq_of_lt_le hlo hhi
  · have hl : (d + 500000000) / 1000000000 = d / 1000000000 := by omega
    have hFle : F ≤ 2417851634393555339389291 := by omega
    have hlo : d / 1000000000 * 4835703278458516698824704
        ≤ S1 + 2417851639229258349412352 := by omega
    have hhi : S1 + 2417851639229258349412352
        < (d / 1000000000 + 1) * 4835703278458516698824704 := by omega
    rw [hl]
    exact Nat.div_eq_of_lt_le hlo hhi

end Float64

end Lockutil

namespace Lockutil

/-! ### The ttl the counting lock sends -/

/-- For a ttl shorter than `2^24` seconds in magnitude, the `float64` computation
of the source gives the ttl rounded to the nearest whole second. -/
theorem roundSeconds_eq_nearest (d : Int) (h1 : -16777216000000000 < d)
    (h2 : d < 16777216000000000) : roundSeconds d = nearestSecond d := by
  unfold roundSeconds nearestSecond
  split
  · rw [Float64.mathRound_seconds _ (by omega)]
    omega
  · rw [Float64.mathRound_seconds _ (by omega)]
    omega

theorem roundSeconds_nonneg (d : Int) (h : 0 ≤ d) : 0 ≤ roundSeconds d := by
  unfold roundSeconds
  rw [if_pos h]
  exact Int.ofNat_nonneg _

/-- The nearest whole second is within half a second of the duration. -/
theorem nearestSecond_nearest (d : Int) :
    nearestSecond d * Second - d ≤ 500000000 ∧ d - nearestSecond d * Second ≤ 500000000 := by
  unfold nearestSecond Second
  split <;> omega

/-- Every whole number of magnitude at most `2^53` is a `float64`. -/
theorem ofInt_exact_le (x : Int) (h1 : -9007199254740992 ≤ x) (h2 : x ≤ 9007199254740992) :
    Float64.ofInt x = x := by
  by_cases ha : x = 9007199254740992
  · rw [ha]
    decide
  · by_cases hb : x = -9007199254740992
    · rw [hb]
      decide
    · have h3 : x < 9007199254740992 := by omega
      have h4 : -9007199254740992 < x := by omega
      exact Float64.ofInt_exact x h4 h3

/-- The script's `ARGV[1]-1`, as the store writes it, is the decimal text of
`num - 1` when `num` is within `-2^53 < num ≤ 2^53`. -/
theorem formatG17_sub_one (num : Int) (h1 : -9007199254740992 < num)
    (h2 : num ≤ 9007199254740992) :
    formatG17 (Float64.ofInt (Float64.ofInt num - 1)) = .int (num - 1) := by
  have h3 : -9007199254740992 ≤ num := by omega
  have h4 : -9007199254740992 ≤ num - 1 := by omega
  have h5 : num - 1 ≤ 9007199254740992 := by omega
  rw [ofInt_exact_le num h3 h2, ofInt_exact_le (num - 1) h4 h5]
  have hsmall : (num - 1).natAbs < 100000000000000000 := by omega
  unfold formatG17
  rw [if_pos hsmall]

end Lockutil

namespace Lockutil

/-! ## The store: reading after writing -/

theorem Store.get_eq_some (s : Store) (now : Int) (key : String) (e : Entry)
    (h : s key = some e) (ha : e.alive now = true) : s.get now key = some e := by
  simp [Store.get, h, ha]

/-- A key that is absent stays absent as time passes. -/
theorem Store.get_none_mono (s : Store) (t0 t : Int) (key : String) (h : s.get t0 key = none)
    (ht : t0 ≤ t) : s.get t key = none := by
  unfold Store.get at h ⊢
  cases hk : s key with
  | none => rfl
  | some e =>
    rw [hk] at h
    simp only at h ⊢
    have ha : e.alive t0 = false := by
      cases hb : e.alive t0 with
      | false => rfl
      | true => simp [hb] at h
    have hb : e.alive t = false := by
      unfold Entry.alive at ha ⊢
      cases hx : e.expireAt with
      | none => simp [hx] at ha
      | some x =>
        simp only [hx, decide_eq_false_iff_not, not_lt] at ha ⊢
        omega
    simp [hb]

/-! ## The calls over the in-memory store -/

theorem Lock_mem (pfx key : String) (ttl : Int) (w : World) :
    Lock (coordinator pfx) key ttl w =
      (.ok (cmdSETNX (FormatKey (coordinator pfx) key) 1 ttl w).1,
        (cmdSETNX (FormatKey (coordinator pfx) key) 1 ttl w).2) := by
  unfold Lock
  simp only [coordinator, memRedis]
  split <;> simp_all

theorem UnLock_mem (pfx key : String) (w : World) :
    UnLock (coordinator pfx) key w =
      (.ok (), { w with store := w.store.erase (FormatKey (coordinator pfx) key) }) := by
  rfl

theorem LockNum_mem (pfx key : String) (num ttl : Int) (w : World) :
    LockNum (coordinator pfx) key num ttl w =
      (.ok (decide ((evalRedisLua (FormatKey (coordinator pfx) key) num (roundSeconds ttl) w).1 = 1)),
        (evalRedisLua (FormatKey (coordinator pfx) key) num (roundSeconds ttl) w).2) := by
  unfold LockNum
  simp [coordinator, memRedis]

/-- The exclusive lock on a key that is absent: granted, and the record is
written with its expiry. -/
theorem Lock_absent (pfx key : String) (ttl : Int) (w : World)
    (h : w.store.get w.now (FormatKey (coordinator pfx) key) = none) :
    Lock (coordinator pfx) key ttl w =
      (.ok true, ⟨w.store.put (FormatKey (coordinator pfx) key) ⟨.int 1, some (w.now + ttl)⟩,
        w.now⟩) := by
  rw [Lock_mem]
  simp [cmdSETNX, h]

/-- The exclusive lock on a key that is present: denied, nothing changes. -/
theorem Lock_present (pfx key : String) (ttl : Int) (w : World) (e : Entry)
    (h : w.store.get w.now (FormatKey (coordinator pfx) key) = some e) :
    Lock (coordinator pfx) key ttl w = (.ok false, w) := by
  rw [Lock_mem]
  simp [cmdSETNX, h]

theorem runLock_held (pfx key : String) (ttl : Int) (ts : List Int) (w : World) (e : Entry)
    (x : Int) (hk : w.store (FormatKey (coordinator pfx) key) = some e)
    (hx : e.expireAt = some x) (hts : ∀ t ∈ ts, t < x) :
    (runLock (coordinator pfx) key ttl ts w).1 = List.replicate ts.length (.ok false) ∧
      (runLock (coordinator pfx) key ttl ts w).2.store = w.store := by
  induction ts generalizing w with
  | nil => simp [runLock]
  | cons t ts ih =>
    have ht : t < x := hts t (List.mem_cons_self _ _)
    have hget : (w.atTime t).store.get (w.atTime t).now (FormatKey (coordinator pfx) key)
        = some e := by
      apply Store.get_eq_some _ _ _ _ hk
      simp [Entry.alive, hx, World.atTime, ht]
    have hstep := Lock_present pfx key ttl (w.atTime t) e hget
    have := ih (w.atTime t) hk (fun u hu => hts u (List.mem_cons_of_mem _ hu))
    unfold runLock
    rw [hstep]
    simp only [List.length_cons, List.replicate_succ]
    exact ⟨by rw [this.1], this.2⟩

end Lockutil

namespace Lockutil

/-! ## The counting lock over the in-memory store -/

theorem runLockNum_cons (lock : RedisDistributedLock World) (key : String) (c : NumCall)
    (cs : List NumCall) (w : World) :
    runLockNum lock key (c :: cs) w =
      ((LockNum lock key c.num c.ttl (w.atTime c.time)).1 ::
          (runLockNum lock key cs (LockNum lock key c.num c.ttl (w.atTime c.time)).2).1,
        (runLockNum lock key cs (LockNum lock key c.num c.ttl (w.atTime c.time)).2).2) := by
  conv_lhs => unfold runLockNum

/-- The counting lock on a key that is absent: granted; the text of the script's
`ARGV[1]-1` is written when the ttl sent is at least one second, and nothing is
written otherwise. -/
theorem LockNum_absent (pfx key : String) (num ttl : Int) (w : World)
    (h : w.store.get w.now (FormatKey (coordinator pfx) key) = none) :
    LockNum (coordinator pfx) key num ttl w =
      (.ok true,
        if roundSeconds ttl ≤ 0 then w
        else ⟨w.store.put (FormatKey (coordinator pfx) key)
          ⟨formatG17 (Float64.ofInt (Float64.ofInt num - 1)),
            some (w.now + roundSeconds ttl * Second)⟩, w.now⟩) := by
  rw [LockNum_mem]
  simp only [evalRedisLua, cmdGET, h, Option.map_none', cmdSETEX]
  split <;> simp

/-- The counting lock on a key that is present: granted exactly when the script
reads a positive number, and then `DECR` is tried. -/
theorem LockNum_present (pfx key : String) (num ttl : Int) (w : World) (e : Entry)
    (h : w.store.get w.now (FormatKey (coordinator pfx) key) = some e) :
    LockNum (coordinator pfx) key num ttl w =
      (.ok (decide (0 < e.val.toNumber)),
        if e.val.toNumber ≤ 0 then w
        else (cmdDECR (FormatKey (coordinator pfx) key) w).2) := by
  rw [LockNum_mem]
  simp only [evalRedisLua, cmdGET, h, Option.map_some']
  split
  · rename_i hle
    simp [not_lt.mpr hle]
  · rename_i hle
    simp [not_le.mp hle]

/-- The counting lock on a key that holds a 64-bit integer: granted exactly when
the counter is positive, and then the counter goes down by one and keeps its
expiry. -/
theorem LockNum_present_int (pfx key : String) (num ttl : Int) (w : World) (i : Int)
    (x : Option Int) (hi : i ≤ MaxInt64)
    (h : w.store.get w.now (FormatKey (coordinator pfx) key) = some ⟨.int i, x⟩) :
    LockNum (coordinator pfx) key num ttl w =
      (.ok (decide (0 < i)),
        if i ≤ 0 then w
        else ⟨w.store.put (FormatKey (coordinator pfx) key) ⟨.int (i - 1), x⟩, w.now⟩) := by
  rw [LockNum_present pfx key num ttl w _ h]
  have hsign : (Val.int i).toNumber ≤ 0 ↔ i ≤ 0 := Float64.ofInt_nonpos_iff i
  by_cases hle : i ≤ 0
  · have h1 : (Val.int i).toNumber ≤ 0 := hsign.mpr hle
    simp [h1, hle, not_lt.mpr h1, not_lt.mpr hle]
  · have h1 : ¬ (Val.int i).toNumber ≤ 0 := fun hh => hle (hsign.mp hh)
    have hrange : MinInt64 < i ∧ i ≤ MaxInt64 := by
      refine ⟨?_, hi⟩
      unfold MinInt64
      omega
    simp [h1, hle, not_le.mp h1, not_le.mp hle, cmdDECR, h, hrange]

/-- The counting lock on a key whose value is not positive: denied, nothing
changes. -/
theorem LockNum_present_nonpos (pfx key : String) (num ttl : Int) (w : World) (e : Entry)
    (hv : e.val.asInt ≤ 0)
    (h : w.store.get w.now (FormatKey (coordinator pfx) key) = some e) :
    LockNum (coordinator pfx) key num ttl w = (.ok false, w) := by
  rw [LockNum_present pfx key num ttl w _ h]
  have h1 : e.val.toNumber ≤ 0 := (Float64.ofInt_nonpos_iff e.val.asInt).mpr hv
  simp [h1, not_lt.mpr h1]

/-- A call of the counting lock on a key that is present leaves a record with the
same expiry under the key. -/
theorem LockNum_present_expiry (pfx key : String) (num ttl : Int) (w : World) (e : Entry)
    (hk : w.store (FormatKey (coordinator pfx) key) = some e)
    (h : w.store.get w.now (FormatKey (coordinator pfx) key) = some e) :
    ∃ v, (LockNum (coordinator pfx) key num ttl w).2.store (FormatKey (coordinator pfx) key)
      = some ⟨v, e.expireAt⟩ := by
  rw [LockNum_present pfx key num ttl w _ h]
  simp only
  split
  · exact ⟨e.val, hk⟩
  · unfold cmdDECR
    rw [h]
    simp only
    split
    · rename_i i _
      split
      · exact ⟨.int (i - 1), by simp [Store.put]⟩
      · exact ⟨e.val, hk⟩
    · exact ⟨e.val, hk⟩

/-- Calls of the counting lock made before the record expires leave its expiry
where it was. -/
theorem runLockNum_expiry (pfx key : String) (cs : List NumCall) (w : World) (v : Val)
    (x : Int) (hk : w.store (FormatKey (coordinator pfx) key) = some ⟨v, some x⟩)
    (hts : ∀ call ∈ cs, call.time < x) :
    ∃ c : Val, (runLockNum (coordinator pfx) key cs w).2.store
      (FormatKey (coordinator pfx) key) = some ⟨c, some x⟩ := by
  induction cs generalizing w v with
  | nil => exact ⟨v, hk⟩
  | cons call cs ih =>
    have ht : call.time < x := hts call (List.mem_cons_self _ _)
    have hget : (w.atTime call.time).store.get (w.atTime call.time).now
        (FormatKey (coordinator pfx) key) = some ⟨v, some x⟩ := by
      apply Store.get_eq_some _ _ _ _ hk
      simp [Entry.alive, World.atTime, ht]
    obtain ⟨v1, hv1⟩ := LockNum_present_expiry pfx key call.num call.ttl (w.atTime call.time)
      _ hk hget
    rw [runLockNum_cons]
    exact ih _ v1 hv1 (fun d hd => hts d (List.mem_cons_of_mem _ hd))

theorem runLockNum_held (pfx key : String) (cs : List NumCall) (w : World) (c : Nat) (x : Int)
    (hc : (c : Int) ≤ MaxInt64)
    (hk : w.store (FormatKey (coordinator pfx) key) = some ⟨.int (c : Int), some x⟩)
    (hts : ∀ call ∈ cs, call.time < x) :
    (runLockNum (coordinator pfx) key cs w).1 =
        List.replicate (min cs.length c) (.ok true) ++
          List.replicate (cs.length - c) (.ok false) ∧
      (runLockNum (coordinator pfx) key cs w).2.store (FormatKey (coordinator pfx) key) =
        some ⟨.int ((c - min cs.length c : Nat) : Int), some x⟩ := by
  induction cs generalizing w c with
  | nil => simp [runLockNum, hk]
  | cons call cs ih =>
    have ht : call.time < x := hts call (List.mem_cons_self _ _)
    have hts2 : ∀ d ∈ cs, d.time < x := fun d hd => hts d (List.mem_cons_of_mem _ hd)
    have hget : (w.atTime call.time).store.get (w.atTime call.time).now
        (FormatKey (coordinator pfx) key) = some ⟨.int (c : Int), some x⟩ := by
      apply Store.get_eq_some _ _ _ _ hk
      simp [Entry.alive, World.atTime, ht]
    have hstep := LockNum_present_int pfx key call.num call.ttl (w.atTime call.time) _ _ hc hget
    unfold runLockNum
    rw [hstep]
    simp only
    cases c with
    | zero =>
      have hk0 : (w.atTime call.time).store (FormatKey (coordinator pfx) key)
          = some ⟨.int ((0 : Nat) : Int), some x⟩ := hk
      have := ih (w.atTime call.time) 0 hc hk0 hts2
      simp only [Nat.cast_zero, le_refl, ↓reduceIte, lt_self_iff_false, decide_False,
        List.length_cons, Nat.min_zero, List.replicate_zero, List.nil_append, Nat.sub_zero,
        List.replicate_succ] at this ⊢
      exact ⟨by rw [this.1], this.2⟩
    | succ c =>
      have hpos : ¬ ((c + 1 : Nat) : Int) ≤ 0 := by omega
      have hk1 : (⟨(w.atTime call.time).store.put (FormatKey (coordinator pfx) key)
          ⟨.int (((c + 1 : Nat) : Int) - 1), some x⟩, (w.atTime call.time).now⟩ : World).store
            (FormatKey (coordinator pfx) key) = some ⟨.int (c : Int), some x⟩ := by
        simp [Store.put]
      have hc1 : (c : Int) ≤ MaxInt64 := by
        have : ((c + 1 : Nat) : Int) = (c : Int) + 1 := by push_cast; rfl
        omega
      have := ih _ c hc1 hk1 hts2
      simp only [hpos, ↓reduceIte, List.length_cons]
      have hlt : (0 : Int) < ((c + 1 : Nat) : Int) := by omega
      simp only [hlt, decide_True]
      have e1 : min (cs.length + 1) (c + 1) = min cs.length c + 1 := by omega
      have e2 : cs.length + 1 - (c + 1) = cs.length - c := by omega
      have e3 : c + 1 - (min cs.length c + 1) = c - min cs.length c := by omega
      rw [e1, e2, e3, List.replicate_succ, List.cons_append]
      exact ⟨by rw [this.1], this.2⟩

/-- The first call of the counting lock on an absent key, with a ttl sent of at
least one second, writes the text of the script's `ARGV[1]-1`. -/
theorem LockNum_init_any (pfx key : String) (num ttl : Int) (w : World) (t0 : Int)
    (hsec : 1 ≤ roundSeconds ttl)
    (habs : w.store.get t0 (FormatKey (coordinator pfx) key) = none) :
    LockNum (coordinator pfx) key num ttl (w.atTime t0) =
      (.ok true, ⟨w.store.put (FormatKey (coordinator pfx) key)
          ⟨formatG17 (Float64.ofInt (Float64.ofInt num - 1)),
            some (t0 + roundSeconds ttl * Second)⟩, t0⟩) := by
  rw [LockNum_absent pfx key num ttl (w.atTime t0) habs]
  have : ¬ roundSeconds ttl ≤ 0 := by omega
  simp [this, World.atTime]

/-- For `num` within `-2^53 < num ≤ 2^53` the first call writes the counter
`num - 1`. -/
theorem LockNum_init (pfx key : String) (num ttl : Int) (w : World) (t0 : Int)
    (h1 : -9007199254740992 < num) (h2 : num ≤ 9007199254740992)
    (hsec : 1 ≤ roundSeconds ttl)
    (habs : w.store.get t0 (FormatKey (coordinator pfx) key) = none) :
    LockNum (coordinator pfx) key num ttl (w.atTime t0) =
      (.ok true, ⟨w.store.put (FormatKey (coordinator pfx) key)
          ⟨.int (num - 1), some (t0 + roundSeconds ttl * Second)⟩, t0⟩) := by
  rw [LockNum_init_any pfx key num ttl w t0 hsec habs, formatG17_sub_one num h1 h2]

end Lockutil

namespace Lockutil

/-! ## Mutual exclusion and bounded concurrency -/

theorem countP_replicate_denied (k : Nat) :
    (List.replicate k (Except.ok false : Except Err Bool)).countP granted = 0 ∧
      (List.replicate k (Except.ok false : Except Err Bool)).countP denied = k := by
  induction k with
  | zero => simp
  | succ k ih =>
    simp only [List.replicate_succ, List.countP_cons, granted, denied, ih]
    simp

theorem countP_replicate_granted (k : Nat) :
    (List.replicate k (Except.ok true : Except Err Bool)).countP granted = k ∧
      (List.replicate k (Except.ok true : Except Err Bool)).countP denied = 0 := by
  induction k with
  | zero => simp
  | succ k ih =>
    simp only [List.replicate_succ, List.countP_cons, granted, denied, ih]
    simp

/-- C1. Mutual exclusion of the exclusive lock. On a store where the formatted
key is absent at the instant `t0` of the first call, `n ≥ 1` calls
`Lock(key, ttl)` with `ttl > 0`, made one after the other at `t0` and at any
instants before the record expires at `t0 + ttl`, with no `UnLock` in between:
the first call is granted and the other `n - 1` are denied, so exactly one call
returns true. -/
theorem lock_mutual_exclusion (pfx key : String) (ttl : Int) (n : Nat) (w : World) (t0 : Int)
    (ts : List Int) (_httl : 0 < ttl) (_hn : 1 ≤ n) (hlen : (t0 :: ts).length = n)
    (habs : w.store.get t0 (FormatKey (coordinator pfx) key) = none)
    (hts : ∀ t ∈ ts, t < t0 + ttl) :
    (runLock (coordinator pfx) key ttl (t0 :: ts) w).1 =
        .ok true :: List.replicate (n - 1) (.ok false) ∧
      (runLock (coordinator pfx) key ttl (t0 :: ts) w).1.countP granted = 1 ∧
      (runLock (coordinator pfx) key ttl (t0 :: ts) w).1.countP denied = n - 1 := by
  have hstep := Lock_absent pfx key ttl (w.atTime t0) habs
  have hrest := runLock_held pfx key ttl ts
    ⟨(w.atTime t0).store.put (FormatKey (coordinator pfx) key)
      ⟨.int 1, some ((w.atTime t0).now + ttl)⟩, (w.atTime t0).now⟩
    ⟨.int 1, some (t0 + ttl)⟩ (t0 + ttl) (by simp [Store.put, World.atTime]) rfl hts
  have hn1 : n - 1 = ts.length := by
    simp only [List.length_cons] at hlen
    omega
  have hres : (runLock (coordinator pfx) key ttl (t0 :: ts) w).1 =
      .ok true :: List.replicate (n - 1) (.ok false) := by
    rw [hn1]
    conv_lhs => unfold runLock
    rw [hstep]
    simp only
    rw [hrest.1]
  refine ⟨hres, ?_, ?_⟩
  · rw [hres, List.countP_cons, (countP_replicate_denied (n - 1)).1]
    rfl
  · rw [hres, List.countP_cons, (countP_replicate_denied (n - 1)).2]
    rfl

/-- The run of the unit test: prefix `test`, key `unit_lock_test`, ttl 8 s and
10000 calls on a cleared key give exactly one grant. -/
theorem lock_mutual_exclusion_witness :
    (runLock (coordinator "test") "unit_lock_test" (8 * Second) (0 :: List.replicate 9999 0)
      ⟨emptyStore, 0⟩).1.countP granted = 1 :=
  (lock_mutual_exclusion "test" "unit_lock_test" (8 * Second) 10000 ⟨emptyStore, 0⟩ 0
    (List.replicate 9999 0) (by decide) (by decide)
    (by rw [List.length_cons, List.length_replicate]) rfl
    (by
      intro t ht
      rw [List.eq_of_mem_replicate ht]
      decide)).2.1

/-- C2, for capacities the script can count. On a store where the formatted key
is absent at `t0`, `m` calls `LockNum(key, n, ttl)` with `1 ≤ n ≤ 2^53` and a ttl
that the code rounds to at least one second, made one after the other at `t0`
and at any instants before the record expires: the first `min m n` calls are
granted and every later call is denied, so the number of grants is `min m n`,
at most `n`. -/
theorem locknum_bounded_concurrency (pfx key : String) (n : Nat) (ttl : Int) (w : World)
    (t0 : Int) (ts : List Int) (hn : 1 ≤ n) (hn53 : n ≤ 9007199254740992)
    (hsec : 1 ≤ roundSeconds ttl)
    (habs : w.store.get t0 (FormatKey (coordinator pfx) key) = none)
    (hts : ∀ t ∈ ts, t < t0 + roundSeconds ttl * Second) :
    (runLockNum (coordinator pfx) key ((t0 :: ts).map (fun t => ⟨(n : Int), ttl, t⟩)) w).1 =
        List.replicate (min (ts.length + 1) n) (.ok true) ++
          List.replicate (ts.length + 1 - min (ts.length + 1) n) (.ok false) ∧
      (runLockNum (coordinator pfx) key
        ((t0 :: ts).map (fun t => ⟨(n : Int), ttl, t⟩)) w).1.countP granted
          = min (ts.length + 1) n ∧
      (runLockNum (coordinator pfx) key
        ((t0 :: ts).map (fun t => ⟨(n : Int), ttl, t⟩)) w).1.countP granted ≤ n := by
  have hstep := LockNum_init pfx key (n : Int) ttl w t0 (by omega) (by omega) hsec habs
  obtain ⟨k, rfl⟩ : ∃ k, n = k + 1 := ⟨n - 1, by omega⟩
  have hrest := runLockNum_held pfx key
    (ts.map (fun t => (⟨((k + 1 : Nat) : Int), ttl, t⟩ : NumCall)))
    ⟨w.store.put (FormatKey (coordinator pfx) key)
      ⟨.int (((k + 1 : Nat) : Int) - 1), some (t0 + roundSeconds ttl * Second)⟩, t0⟩
    k (t0 + roundSeconds ttl * Second)
    (by
      unfold MaxInt64
      omega)
    (by simp [Store.put])
    (by
      intro call hcall
      obtain ⟨t, ht, rfl⟩ := List.mem_map.mp hcall
      exact hts t ht)
  have hres : (runLockNum (coordinator pfx) key
      ((t0 :: ts).map (fun t => ⟨((k + 1 : Nat) : Int), ttl, t⟩)) w).1 =
        List.replicate (min (ts.length + 1) (k + 1)) (.ok true) ++
          List.replicate (ts.length + 1 - min (ts.length + 1) (k + 1)) (.ok false) := by
    rw [List.map_cons, runLockNum_cons]
    simp only
    rw [hstep]
    simp only
    rw [hrest.1]
    have e1 : min (ts.length + 1) (k + 1) = min ts.length k + 1 := by omega
    have e2 : ts.length + 1 - (min ts.length k + 1) = ts.length - k := by omega
    rw [e1, e2, List.replicate_succ, List.cons_append, List.length_map]
  refine ⟨hres, ?_, ?_⟩
  · rw [hres, List.countP_append, (countP_replicate_granted _).1, (countP_replicate_denied _).1]
    rfl
  · rw [hres, List.countP_append, (countP_replicate_granted _).1, (countP_replicate_denied _).1]
    omega

set_option maxRecDepth 100000 in
/-- The scenario of the specification: capacity 3, ttl 5 s, four calls on a fresh
key give true, true, true, false. -/
theorem locknum_bounded_concurrency_witness :
    (runLockNum (coordinator "test") "job1"
      ([0, 1, 2, 3].map (fun t => ⟨((3 : Nat) : Int), 5 * Second, t⟩)) ⟨emptyStore, 0⟩).1 =
      [.ok true, .ok true, .ok true, .ok false] :=
  (locknum_bounded_concurrency "test" "job1" 3 (5 * Second) ⟨emptyStore, 0⟩ 0 [1, 2, 3]
    (by decide) (by decide) (by decide) rfl (by decide)).1

set_option maxRecDepth 100000 in
/-- C2 fails as stated at the capacity `n = 2^53 + 1`: the script reads `n` as the
`float64` `2^53` and stores `n - 2`, so of `m = n` calls on a fresh key, all made
at the instant 0 with a ttl of 5 s, the first `n - 1` are granted and the last
one is denied, where the claim has all `min m n = n` of them granted. -/
theorem locknum_bounded_concurrency_counterexample :
    (0 :: List.replicate 9007199254740992 (0 : Int)).length = 9007199254740993 ∧
      (runLockNum (coordinator "test") "job1"
        ((0 :: List.replicate 9007199254740992 (0 : Int)).map
          (fun t => ⟨9007199254740993, 5 * Second, t⟩)) ⟨emptyStore, 0⟩).1 =
        List.replicate 9007199254740992 (.ok true) ++ [.ok false] := by
  have hsec : roundSeconds (5 * Second) = 5 := by decide
  have hstep := LockNum_init_any "test" "job1" 9007199254740993 (5 * Second) ⟨emptyStore, 0⟩ 0
    (by rw [hsec]; decide) rfl
  have hval : formatG17 (Float64.ofInt (Float64.ofInt 9007199254740993 - 1))
      = .int ((9007199254740991 : Nat) : Int) := by decide
  rw [hval, hsec] at hstep
  have hrest := runLockNum_held "test" "job1"
    ((List.replicate 9007199254740992 (0 : Int)).map
      (fun t => (⟨9007199254740993, 5 * Second, t⟩ : NumCall)))
    ⟨(emptyStore).put (FormatKey (coordinator "test") "job1")
      ⟨.int ((9007199254740991 : Nat) : Int), some (0 + 5 * Second)⟩, 0⟩
    9007199254740991 (0 + 5 * Second) (by decide) (by simp [Store.put])
    (by
      intro call hcall
      obtain ⟨t, ht, rfl⟩ := List.mem_map.mp hcall
      rw [List.eq_of_mem_replicate ht]
      decide)
  refine ⟨by rw [List.length_cons, List.length_replicate], ?_⟩
  rw [List.map_cons, runLockNum_cons]
  simp only
  rw [hstep]
  simp only
  rw [hrest.1, List.length_map, List.length_replicate]
  have e1 : min 9007199254740992 9007199254740991 = 9007199254740991 := by decide
  have e2 : 9007199254740992 - 9007199254740991 = 1 := by decide
  have e3 : (9007199254740992 : Nat) = 9007199254740991 + 1 := by decide
  rw [e1, e2, List.replicate_one]
  conv_rhs => rw [e3, List.replicate_succ, List.cons_append]

/-- C8, for capacities the script can count. After a call
`LockNum(key, num, ttl)` with `1 ≤ num ≤ 2^53` has written the counter (the key
was absent and the code rounds the ttl to at least one second), whatever
further `LockNum` calls on the key follow before the record expires, with any
`num` and `ttl` arguments, the record is still there with its first expiry and
its counter `c` satisfies `0 ≤ c ≤ num - 1`. -/
theorem locknum_counter_invariant (pfx key : String) (num ttl : Int) (w : World) (t0 : Int)
    (cs : List NumCall) (hnum : 1 ≤ num) (hnum53 : num ≤ 9007199254740992)
    (hsec : 1 ≤ roundSeconds ttl)
    (habs : w.store.get t0 (FormatKey (coordinator pfx) key) = none)
    (hts : ∀ call ∈ cs, call.time < t0 + roundSeconds ttl * Second) :
    ∃ c : Int, (runLockNum (coordinator pfx) key (⟨num, ttl, t0⟩ :: cs) w).2.store
        (FormatKey (coordinator pfx) key) =
          some ⟨.int c, some (t0 + roundSeconds ttl * Second)⟩ ∧
      0 ≤ c ∧ c ≤ num - 1 := by
  have hstep := LockNum_init pfx key num ttl w t0 (by omega) hnum53 hsec habs
  obtain ⟨k, rfl⟩ : ∃ k : Nat, num = (k : Int) + 1 := ⟨(num - 1).toNat, by omega⟩
  have hrest := runLockNum_held pfx key cs
    ⟨w.store.put (FormatKey (coordinator pfx) key)
      ⟨.int (((k : Int) + 1) - 1), some (t0 + roundSeconds ttl * Second)⟩, t0⟩
    k (t0 + roundSeconds ttl * Second)
    (by
      unfold MaxInt64
      omega)
    (by simp [Store.put]) hts
  refine ⟨((k - min cs.length k : Nat) : Int), ?_, by omega, by omega⟩
  rw [runLockNum_cons]
  simp only
  rw [hstep]
  exact hrest.2

set_option maxRecDepth 100000 in
/-- Capacity 3: after the first call and three more, the counter is within
`0 .. 2`. -/
theorem locknum_counter_invariant_witness :
    ∃ c : Int, (runLockNum (coordinator "test") "job1"
        (⟨3, 5 * Second, 0⟩ :: [⟨7, Second, 1⟩, ⟨1, 9 * Second, 2⟩, ⟨3, 5 * Second, 3⟩])
        ⟨emptyStore, 0⟩).2.store (FormatKey (coordinator "test") "job1") =
          some ⟨.int c, some (0 + roundSeconds (5 * Second) * Second)⟩ ∧ 0 ≤ c ∧ c ≤ 3 - 1 :=
  locknum_counter_invariant "test" "job1" 3 (5 * Second) ⟨emptyStore, 0⟩ 0
    [⟨7, Second, 1⟩, ⟨1, 9 * Second, 2⟩, ⟨3, 5 * Second, 3⟩] (by decide) (by decide)
    (by decide) rfl (by decide)

set_option maxRecDepth 100000 in
/-- C8 fails as stated at `num = 2^53 + 3`: the script reads `num` as the `float64`
`2^53 + 4`, subtracts one and rounds again, and the initialising call on a fresh
key stores the counter `2^53 + 4 = num + 1`, above `num - 1`. -/
theorem locknum_counter_invariant_counterexample :
    (1 : Int) ≤ 9007199254740995 ∧ 1 ≤ roundSeconds (5 * Second) ∧
      (runLockNum (coordinator "test") "job1" [⟨9007199254740995, 5 * Second, 0⟩]
        ⟨emptyStore, 0⟩).2.store (FormatKey (coordinator "test") "job1") =
          some ⟨.int 9007199254740996, some 5000000000⟩ ∧
      ¬ ((9007199254740996 : Int) ≤ 9007199254740995 - 1) := by
  decide

end Lockutil

namespace Lockutil

/-! ## Release, the reference step, and expiry -/

/-- C4. Release is unconditional and restores acquirability. For every store
state, prefix and raw key, `UnLock(key)` answers without failure, leaves the
formatted key absent (whether or not it was present; the call carries no
identity of a caller), leaves every other key of the store as it was, and a
`Lock(key, ttl)` that follows, at once or at any later instant, is granted. And
`Lock(key, ttl)` followed by `UnLock(key)` on a store where the formatted key
was absent gives back the store a reader saw before: the same record under
every key at every instant from then on, and the very same map when the key held
no expired record either. -/
theorem unlock_restores (pfx key : String) (w : World) :
    (UnLock (coordinator pfx) key w).1 = .ok () ∧
      (∀ t, (UnLock (coordinator pfx) key w).2.store.get t (FormatKey (coordinator pfx) key)
        = none) ∧
      (∀ k, k ≠ FormatKey (coordinator pfx) key →
        (UnLock (coordinator pfx) key w).2.store k = w.store k) ∧
      (∀ ttl t, 0 < ttl →
        (Lock (coordinator pfx) key ttl ((UnLock (coordinator pfx) key w).2.atTime t)).1
          = .ok true) ∧
      (∀ ttl t1, 0 < ttl → w.store.get w.now (FormatKey (coordinator pfx) key) = none →
        (Lock (coordinator pfx) key ttl w).1 = .ok true ∧
        (∀ k t, w.now ≤ t →
          (UnLock (coordinator pfx) key
            ((Lock (coordinator pfx) key ttl w).2.atTime t1)).2.store.get t k
              = w.store.get t k) ∧
        (w.store (FormatKey (coordinator pfx) key) = none →
          (UnLock (coordinator pfx) key
            ((Lock (coordinator pfx) key ttl w).2.atTime t1)).2.store = w.store)) := by
  refine ⟨rfl, ?_, ?_, ?_, ?_⟩
  · intro t
    simp [UnLock_mem, Store.get, Store.erase]
  · intro k hk
    simp [UnLock_mem, Store.erase, hk]
  · intro ttl t _
    rw [Lock_absent]
    simp [UnLock_mem, World.atTime, Store.get, Store.erase]
  · intro ttl t1 _ habs
    rw [Lock_absent pfx key ttl w habs]
    refine ⟨rfl, ?_, ?_⟩
    · intro k t ht
      by_cases hk : k = FormatKey (coordinator pfx) key
      · subst hk
        rw [Store.get_none_mono _ _ _ _ habs ht]
        simp [UnLock_mem, World.atTime, Store.get, Store.erase]
      · simp [UnLock_mem, World.atTime, Store.get, Store.erase, Store.put, hk]
    · intro hnone
      funext k
      by_cases hk : k = FormatKey (coordinator pfx) key
      · subst hk
        simp [UnLock_mem, World.atTime, Store.erase, hnone]
      · simp [UnLock_mem, World.atTime, Store.erase, Store.put, hk]

/-- Prefix `test`, key `unit_lock_test`: after `UnLock` a `Lock` with ttl 8 s is
granted, and `Lock` then `UnLock` on the empty store gives the empty store. -/
theorem unlock_restores_witness :
    (Lock (coordinator "test") "unit_lock_test" (8 * Second)
        ((UnLock (coordinator "test") "unit_lock_test" ⟨emptyStore, 0⟩).2.atTime 0)).1
          = .ok true ∧
      (UnLock (coordinator "test") "unit_lock_test"
        ((Lock (coordinator "test") "unit_lock_test" (8 * Second)
          ⟨emptyStore, 0⟩).2.atTime 5)).2.store = emptyStore :=
  ⟨(unlock_restores "test" "unit_lock_test" ⟨emptyStore, 0⟩).2.2.2.1 (8 * Second) 0 (by decide),
   ((unlock_restores "test" "unit_lock_test" ⟨emptyStore, 0⟩).2.2.2.2 (8 * Second) 5
      (by decide) rfl).2.2 rfl⟩

/-- C10, within the range of `float64`. On a store where the formatted key is
absent, for a `num` within `-2^53 < num ≤ 2^53` and a ttl shorter than `2^24`
seconds that rounds to at least one second; and on a store where the formatted
key is present, for every `num` and ttl, provided the value under the key, when
it is positive, is an integer of at most `MaxInt64`: `LockNum` answers, without
failure, what the reference step `lockNumStep` answers on the formatted key with
the ttl rounded to the nearest whole second, and leaves the world that the step
leaves. No other key is changed, the clock is left alone, and the rounded ttl is
within half a second of the ttl. -/
theorem locknum_refines_step (pfx key : String) (num ttl : Int) (w : World)
    (habsent : w.store.get w.now (FormatKey (coordinator pfx) key) = none →
      -9007199254740992 < num ∧ num ≤ 9007199254740992 ∧
        1 ≤ nearestSecond ttl ∧ ttl < 16777216000000000)
    (hval : ∀ e, w.store.get w.now (FormatKey (coordinator pfx) key) = some e →
      0 < e.val.asInt → ∃ i, e.val = .int i ∧ i ≤ MaxInt64) :
    LockNum (coordinator pfx) key num ttl w =
        (.ok (lockNumStep (FormatKey (coordinator pfx) key) num (nearestSecond ttl) w).1,
          (lockNumStep (FormatKey (coordinator pfx) key) num (nearestSecond ttl) w).2) ∧
      (∀ k, k ≠ FormatKey (coordinator pfx) key →
        (LockNum (coordinator pfx) key num ttl w).2.store k = w.store k) ∧
      (LockNum (coordinator pfx) key num ttl w).2.now = w.now ∧
      (nearestSecond ttl * Second - ttl ≤ 500000000 ∧
        ttl - nearestSecond ttl * Second ≤ 500000000) := by
  cases hget : w.store.get w.now (FormatKey (coordinator pfx) key) with
  | none =>
    obtain ⟨hnum1, hnum2, hsec, httl2⟩ := habsent hget
    have httl1 : -16777216000000000 < ttl := by
      have := (nearestSecond_nearest ttl).1
      unfold Second at this
      omega
    have hR := roundSeconds_eq_nearest ttl httl1 httl2
    have hs : ¬ nearestSecond ttl ≤ 0 := by omega
    rw [LockNum_absent pfx key num ttl w hget, hR, formatG17_sub_one num hnum1 hnum2]
    simp only [lockNumStep, hget, hs, ↓reduceIte]
    refine ⟨by trivial, ?_, by trivial, nearestSecond_nearest ttl⟩
    intro k hk
    simp [Store.put, hk]
  | some e =>
    by_cases hv : e.val.asInt ≤ 0
    · rw [LockNum_present_nonpos pfx key num ttl w e hv hget]
      simp only [lockNumStep, hget, hv, ↓reduceIte]
      refine ⟨by trivial, ?_, by trivial, nearestSecond_nearest ttl⟩
      intro k _
      trivial
    · obtain ⟨i, hi, himax⟩ := hval e hget (by omega)
      obtain ⟨v, x⟩ := e
      simp only at hi
      subst hi
      have hv2 : ¬ i ≤ 0 := hv
      rw [LockNum_present_int pfx key num ttl w i x himax hget]
      simp only [lockNumStep, hget, Val.asInt, hv2, ↓reduceIte]
      refine ⟨?_, ?_, by trivial, nearestSecond_nearest ttl⟩
      · simp [not_le.mp hv2]
        rfl
      · intro k hk
        simp [Store.put, hk]

set_option maxRecDepth 100000 in
/-- Capacity 3 and a ttl of 5 s on the empty store: the call and the reference
step give the same answer and the same world. -/
theorem locknum_refines_step_witness :
    LockNum (coordinator "test") "job1" 3 (5 * Second) ⟨emptyStore, 0⟩ =
      (.ok (lockNumStep (FormatKey (coordinator "test") "job1") 3 (nearestSecond (5 * Second))
          ⟨emptyStore, 0⟩).1,
        (lockNumStep (FormatKey (coordinator "test") "job1") 3 (nearestSecond (5 * Second))
          ⟨emptyStore, 0⟩).2) :=
  (locknum_refines_step "test" "job1" 3 (5 * Second) ⟨emptyStore, 0⟩
    (fun _ => by decide)
    (by
      intro e he
      exact absurd he (by simp [Store.get, emptyStore]))).1

set_option maxRecDepth 100000 in
/-- C10 fails as stated. At `num = 2^53 + 1` on a fresh key the call stores
`num - 2` where the step stores `num - 1`, and at `num = -2^53` it stores `num`.
At a ttl of 16777216.499999999 s the
code sends 16777217 seconds where the nearest whole second is 16777216. At a
ttl of 0.4 s the call stores nothing where the step stores a record. And on a
counter written for `num = MaxInt64`, which is not an integer to the store, the
call is granted and changes nothing where the step lowers the value. -/
theorem locknum_refines_step_counterexample :
    ((LockNum (coordinator "test") "job1" 9007199254740993 (5 * Second)
          ⟨emptyStore, 0⟩).2.store "testjob1"
        = some ⟨.int 9007199254740991, some 5000000000⟩ ∧
      (lockNumStep "testjob1" 9007199254740993 (nearestSecond (5 * Second))
          ⟨emptyStore, 0⟩).2.store "testjob1"
        = some ⟨.int 9007199254740992, some 5000000000⟩ ∧
      (LockNum (coordinator "test") "job1" (-9007199254740992) (5 * Second)
          ⟨emptyStore, 0⟩).2.store "testjob1"
        = some ⟨.int (-9007199254740992), some 5000000000⟩) ∧
    (roundSeconds 16777216499999999 = 16777217 ∧
      nearestSecond 16777216499999999 = 16777216) ∧
    ((LockNum (coordinator "test") "job1" 3 400000000 ⟨emptyStore, 0⟩).2.store "testjob1"
        = none ∧
      (lockNumStep "testjob1" 3 (nearestSecond 400000000) ⟨emptyStore, 0⟩).2.store "testjob1"
        = some ⟨.int 2, some 0⟩) ∧
    ((LockNum (coordinator "test") "job1" 9223372036854775807 (5 * Second)
          ⟨emptyStore, 0⟩).2.store "testjob1"
        = some ⟨.float 9223372036854775808, some 5000000000⟩ ∧
      (LockNum (coordinator "test") "job1" 9223372036854775807 (5 * Second)
          (LockNum (coordinator "test") "job1" 9223372036854775807 (5 * Second)
            ⟨emptyStore, 0⟩).2).2.store "testjob1"
        = some ⟨.float 9223372036854775808, some 5000000000⟩ ∧
      (lockNumStep "testjob1" 9223372036854775807 (nearestSecond (5 * Second))
          (LockNum (coordinator "test") "job1" 9223372036854775807 (5 * Second)
            ⟨emptyStore, 0⟩).2).2.store "testjob1"
        = some ⟨.int 9223372036854775807, some 5000000000⟩) :=
  ⟨⟨by decide, by decide, by decide⟩, ⟨by decide, by decide⟩, ⟨by decide, by decide⟩,
    ⟨by decide, by decide, by decide⟩⟩

end Lockutil

namespace Lockutil

/-! ## Expiry -/

theorem Store.get_expired (s : Store) (t x : Int) (key : String) (v : Val)
    (hk : s key = some ⟨v, some x⟩) (ht : x ≤ t) : s.get t key = none := by
  have : ¬ t < x := by omega
  simp [Store.get, hk, Entry.alive, this]

/-- C5, as the code has it. The counting lock sends the store the whole number
of seconds `R = roundSeconds T`, so its record lives for `R` seconds, which is
more than `T` when `T` rounds up. Exclusive lock: after `Lock(key, T)` is
granted at `t0`, with any denied calls in between and no release, a `Lock` at
any `t ≥ t0 + T` is granted. Counting lock: after `LockNum(key, num, T)` at `t0`
on an absent key, with any further `LockNum` calls before the expiry (also when
they use up all permits), a `LockNum` at any `t ≥ t0 + R` seconds is granted;
for `T` shorter than `2^24` seconds `R` is `T` rounded to the nearest whole
second, so that instant is at most half a second after `t0 + T`; and the
further calls leave the expiry where the first call put it. -/
theorem ttl_liveness_rounded :
    (∀ (pfx key : String) (T T2 : Int) (w : World) (t0 : Int) (ts : List Int) (t : Int),
      0 < T → w.store.get t0 (FormatKey (coordinator pfx) key) = none →
      (∀ u ∈ ts, u < t0 + T) → t0 + T ≤ t →
      (runLock (coordinator pfx) key T (t0 :: ts) w).1.head? = some (.ok true) ∧
        (Lock (coordinator pfx) key T2
          ((runLock (coordinator pfx) key T (t0 :: ts) w).2.atTime t)).1 = .ok true) ∧
    (∀ (pfx key : String) (num T num2 T2 : Int) (w : World) (t0 : Int) (cs : List NumCall)
      (t : Int),
      0 < T → w.store.get t0 (FormatKey (coordinator pfx) key) = none →
      (∀ call ∈ cs, t0 ≤ call.time ∧ call.time < t0 + roundSeconds T * Second) →
      t0 + roundSeconds T * Second ≤ t →
      (runLockNum (coordinator pfx) key (⟨num, T, t0⟩ :: cs) w).1.head? = some (.ok true) ∧
        (LockNum (coordinator pfx) key num2 T2
          ((runLockNum (coordinator pfx) key (⟨num, T, t0⟩ :: cs) w).2.atTime t)).1
            = .ok true) ∧
    (∀ T : Int, 0 < T → T < 16777216000000000 →
      roundSeconds T = nearestSecond T ∧ roundSeconds T * Second ≤ T + 500000000) ∧
    (∀ (pfx key : String) (num T : Int) (w : World) (t0 : Int) (cs : List NumCall),
      1 ≤ roundSeconds T →
      w.store.get t0 (FormatKey (coordinator pfx) key) = none →
      (∀ call ∈ cs, call.time < t0 + roundSeconds T * Second) →
      ∃ c : Val, (runLockNum (coordinator pfx) key (⟨num, T, t0⟩ :: cs) w).2.store
        (FormatKey (coordinator pfx) key) = some ⟨c, some (t0 + roundSeconds T * Second)⟩) := by
  refine ⟨?_, ?_, ?_, ?_⟩
  · intro pfx key T T2 w t0 ts t _ habs hts ht
    have hstep := Lock_absent pfx key T (w.atTime t0) habs
    have hrest := runLock_held pfx key T ts
      ⟨(w.atTime t0).store.put (FormatKey (coordinator pfx) key)
        ⟨.int 1, some ((w.atTime t0).now + T)⟩, (w.atTime t0).now⟩
      ⟨.int 1, some (t0 + T)⟩ (t0 + T) (by simp [Store.put, World.atTime]) rfl hts
    have hrun : runLock (coordinator pfx) key T (t0 :: ts) w =
        (.ok true :: (runLock (coordinator pfx) key T ts
          ⟨(w.atTime t0).store.put (FormatKey (coordinator pfx) key)
            ⟨.int 1, some ((w.atTime t0).now + T)⟩, (w.atTime t0).now⟩).1,
         (runLock (coordinator pfx) key T ts
          ⟨(w.atTime t0).store.put (FormatKey (coordinator pfx) key)
            ⟨.int 1, some ((w.atTime t0).now + T)⟩, (w.atTime t0).now⟩).2) := by
      conv_lhs => unfold runLock
      rw [hstep]
    rw [hrun]
    refine ⟨rfl, ?_⟩
    have hgone : ((runLock (coordinator pfx) key T ts
          ⟨(w.atTime t0).store.put (FormatKey (coordinator pfx) key)
            ⟨.int 1, some ((w.atTime t0).now + T)⟩, (w.atTime t0).now⟩).2.atTime t).store.get
        ((runLock (coordinator pfx) key T ts
          ⟨(w.atTime t0).store.put (FormatKey (coordinator pfx) key)
            ⟨.int 1, some ((w.atTime t0).now + T)⟩, (w.atTime t0).now⟩).2.atTime t).now
        (FormatKey (coordinator pfx) key) = none := by
      apply Store.get_expired _ _ (t0 + T) _ (.int 1) _ ht
      show (runLock (coordinator pfx) key T ts _).2.store _ = _
      rw [hrest.2]
      simp [Store.put, World.atTime]
    rw [Lock_absent pfx key T2 _ hgone]
  · intro pfx key num T num2 T2 w t0 cs t hT habs hts ht
    have hR : 0 ≤ roundSeconds T := roundSeconds_nonneg T (by omega)
    have ht0 : t0 ≤ t := by
      have : 0 ≤ roundSeconds T * Second := by
        unfold Second
        omega
      omega
    rw [runLockNum_cons]
    by_cases hsec : 1 ≤ roundSeconds T
    · rw [LockNum_init_any pfx key num T w t0 hsec habs]
      refine ⟨rfl, ?_⟩
      obtain ⟨c, hc⟩ := runLockNum_expiry pfx key cs
        ⟨w.store.put (FormatKey (coordinator pfx) key)
          ⟨formatG17 (Float64.ofInt (Float64.ofInt num - 1)),
            some (t0 + roundSeconds T * Second)⟩, t0⟩
        (formatG17 (Float64.ofInt (Float64.ofInt num - 1)))
        (t0 + roundSeconds T * Second) (by simp [Store.put])
        (fun call hcall => (hts call hcall).2)
      have hgone := Store.get_expired _ t _ _ c hc ht
      rw [LockNum_absent pfx key num2 T2 _ hgone]
    · have hcs : cs = [] := by
        cases cs with
        | nil => rfl
        | cons call cs =>
          have := hts call (List.mem_cons_self _ _)
          have h0 : roundSeconds T * Second ≤ 0 := by
            unfold Second
            omega
          omega
      subst hcs
      have hstep := LockNum_absent pfx key num T (w.atTime t0) habs
      have hle : roundSeconds T ≤ 0 := by omega
      simp only [hle, ↓reduceIte] at hstep
      rw [hstep]
      refine ⟨rfl, ?_⟩
      have hgone : ((w.atTime t0).atTime t).store.get ((w.atTime t0).atTime t).now
          (FormatKey (coordinator pfx) key) = none :=
        Store.get_none_mono _ _ _ _ habs ht0
      exact congrArg Prod.fst (LockNum_absent pfx key num2 T2 _ hgone)
  · intro T hT hT2
    have hR := roundSeconds_eq_nearest T (by omega) hT2
    refine ⟨hR, ?_⟩
    rw [hR]
    have := (nearestSecond_nearest T).1
    omega
  · intro pfx key num T w t0 cs hsec habs hts
    rw [runLockNum_cons, LockNum_init_any pfx key num T w t0 hsec habs]
    exact runLockNum_expiry pfx key cs _ (formatG17 (Float64.ofInt (Float64.ofInt num - 1)))
      (t0 + roundSeconds T * Second) (by simp [Store.put]) hts

set_option maxRecDepth 100000 in
/-- A ttl of 1.5 s: the exclusive lock taken at 0 is granted again at 1.5 s, and
the counting lock of capacity 1 taken at 0 is granted again at 2 s. -/
theorem ttl_liveness_rounded_witness :
    (Lock (coordinator "test") "job1" 1500000000
        ((runLock (coordinator "test") "job1" 1500000000 [0, 1000000000]
          ⟨emptyStore, 0⟩).2.atTime 1500000000)).1 = .ok true ∧
      (LockNum (coordinator "test") "job1" 1 1500000000
        ((runLockNum (coordinator "test") "job1" [⟨1, 1500000000, 0⟩, ⟨1, 1500000000, 1⟩]
          ⟨emptyStore, 0⟩).2.atTime 2000000000)).1 = .ok true :=
  ⟨(ttl_liveness_rounded.1 "test" "job1" 1500000000 1500000000 ⟨emptyStore, 0⟩ 0 [1000000000]
      1500000000 (by decide) rfl (by decide) (by decide)).2,
   (ttl_liveness_rounded.2.1 "test" "job1" 1 1500000000 1 1500000000 ⟨emptyStore, 0⟩ 0
      [⟨1, 1500000000, 1⟩] 2000000000 (by decide) rfl (by decide) (by decide)).2⟩

set_option maxRecDepth 100000 in
/-- C5 fails as stated: with a ttl of 1.5 s a counting lock of capacity 1 taken at
0 is still held at 1.5 s, because the record lives for 2 s. -/
theorem ttl_liveness_counterexample :
    (0 : Int) < 1500000000 ∧ (0 : Int) + 1500000000 ≤ 1500000000 ∧
      roundSeconds 1500000000 = 2 ∧
      (runLockNum (coordinator "test") "job1"
        [⟨1, 1500000000, 0⟩, ⟨1, 1500000000, 1500000000⟩] ⟨emptyStore, 0⟩).1
          = [.ok true, .ok false] := by
  decide

end Lockutil

namespace Lockutil

/-! ## Failures of the store -/

/-- A polling loop gives up with the error of the first attempt that fails. -/
theorem waitLoop_error {σ : Type} (lock : RedisDistributedLock σ)
    (attempt : σ → Except Err Bool × σ) (j : Nat) (s : σ) (e : Err) (s1 : σ)
    (hden : ∀ i, i < j → (attempt (attemptState lock attempt i s)).1 = .ok false)
    (hfail : attempt (attemptState lock attempt j s) = (.error e, s1))
    (fuel : Nat) (hfuel : j < fuel) :
    waitLoop lock attempt fuel s = some (.error e, s1) := by
  induction j generalizing s fuel with
  | zero =>
    obtain ⟨f, rfl⟩ : ∃ f, fuel = f + 1 := ⟨fuel - 1, by omega⟩
    simp only [attemptState] at hfail
    simp only [waitLoop, hfail]
  | succ j ih =>
    obtain ⟨f, rfl⟩ : ∃ f, fuel = f + 1 := ⟨fuel - 1, by omega⟩
    have h0 := hden 0 (by omega)
    simp only [attemptState] at h0
    have hpair : attempt s = (.ok false, (attempt s).2) := by
      rw [← h0]
    unfold waitLoop
    rw [hpair]
    simp only
    apply ih
    · intro i hi
      have := hden (i + 1) (by omega)
      simpa only [attemptState] using this
    · simpa only [attemptState] using hfail
    · omega

/-- A polling loop returns normally only from an attempt that was granted. -/
theorem waitLoop_ok {σ : Type} (lock : RedisDistributedLock σ)
    (attempt : σ → Except Err Bool × σ) (fuel : Nat) (s s1 : σ)
    (h : waitLoop lock attempt fuel s = some (.ok (), s1)) :
    ∃ s0, attempt s0 = (.ok true, s1) := by
  induction fuel generalizing s with
  | zero => simp [waitLoop] at h
  | succ f ih =>
    unfold waitLoop at h
    split at h
    · simp at h
    · rename_i s2 heq
      simp only [Option.some.injEq, Prod.mk.injEq, true_and] at h
      exact ⟨s, by rw [heq, h]⟩
    · exact ih _ h

theorem Lock_error {σ : Type} (lock : RedisDistributedLock σ) (key : String) (ttl : Int)
    (s : σ) (e : Err) (s1 : σ)
    (h : lock.Redis.SetNX (FormatKey lock key) 1 ttl s = (.error e, s1)) :
    Lock lock key ttl s = (.error e, s1) := by
  simp only [Lock, h]

theorem LockNum_error {σ : Type} (lock : RedisDistributedLock σ) (key : String)
    (num ttl : Int) (s : σ) (e : Err) (s1 : σ)
    (h : lock.Redis.Eval redisLua [FormatKey lock key] [num, roundSeconds ttl] s
      = (.error e, s1)) :
    LockNum lock key num ttl s = (.error e, s1) := by
  simp only [LockNum, h]

/-- C9. A failure of the store is never reported as a denial. For every client:
when the store call of `Lock`, `LockNum` or `UnLock` fails, the operation ends
with that failure and returns no boolean; when `Lock` or `LockNum` returns
false, the store call succeeded and answered that the lock is held (`SetNX`
false) or not granted (a script result other than 1); and `LockWait` and
`LockNumWait` end with the failure of the first attempt whose store call fails,
in the state that call left, without sleeping or trying again, and return
normally only from an attempt that was granted. -/
theorem store_failure_propagates {σ : Type} (lock : RedisDistributedLock σ) (key : String) :
    (∀ ttl s e s1, lock.Redis.SetNX (FormatKey lock key) 1 ttl s = (.error e, s1) →
      Lock lock key ttl s = (.error e, s1)) ∧
    (∀ ttl s s1, Lock lock key ttl s = (.ok false, s1) →
      lock.Redis.SetNX (FormatKey lock key) 1 ttl s = (.ok false, s1)) ∧
    (∀ num ttl s e s1,
      lock.Redis.Eval redisLua [FormatKey lock key] [num, roundSeconds ttl] s = (.error e, s1) →
      LockNum lock key num ttl s = (.error e, s1)) ∧
    (∀ num ttl s s1, LockNum lock key num ttl s = (.ok false, s1) →
      ∃ r, r ≠ 1 ∧
        lock.Redis.Eval redisLua [FormatKey lock key] [num, roundSeconds ttl] s = (.ok r, s1)) ∧
    (∀ s e s1, lock.Redis.Del (FormatKey lock key) s = (.error e, s1) →
      UnLock lock key s = (.error e, s1)) ∧
    (∀ ttl (j : Nat) s e s1,
      (∀ i, i < j → (Lock lock (FormatKey lock key) ttl
        (attemptState lock (Lock lock (FormatKey lock key) ttl) i s)).1 = .ok false) →
      lock.Redis.SetNX (FormatKey lock (FormatKey lock key)) 1 ttl
        (attemptState lock (Lock lock (FormatKey lock key) ttl) j s) = (.error e, s1) →
      ∀ fuel, j < fuel → LockWait lock key ttl fuel s = some (.error e, s1)) ∧
    (∀ num ttl (j : Nat) s e s1,
      (∀ i, i < j → (LockNum lock (FormatKey lock key) num ttl
        (attemptState lock (LockNum lock (FormatKey lock key) num ttl) i s)).1 = .ok false) →
      lock.Redis.Eval redisLua [FormatKey lock (FormatKey lock key)] [num, roundSeconds ttl]
        (attemptState lock (LockNum lock (FormatKey lock key) num ttl) j s) = (.error e, s1) →
      ∀ fuel, j < fuel → LockNumWait lock key num ttl fuel s = some (.error e, s1)) ∧
    (∀ ttl fuel s s1, LockWait lock key ttl fuel s = some (.ok (), s1) →
      ∃ s0, Lock lock (FormatKey lock key) ttl s0 = (.ok true, s1)) ∧
    (∀ num ttl fuel s s1, LockNumWait lock key num ttl fuel s = some (.ok (), s1) →
      ∃ s0, LockNum lock (FormatKey lock key) num ttl s0 = (.ok true, s1)) := by
  refine ⟨?_, ?_, ?_, ?_, ?_, ?_, ?_, ?_, ?_⟩
  · intro ttl s e s1 h
    exact Lock_error lock key ttl s e s1 h
  · intro ttl s s1 h
    unfold Lock at h
    simp only at h
    split at h
    · simp at h
    · rename_i ok s2 heq
      cases ok with
      | false =>
        simp only [Bool.not_false, ↓reduceIte, Prod.mk.injEq, true_and] at h
        rw [heq, h]
      | true => simp at h
  · intro num ttl s e s1 h
    exact LockNum_error lock key num ttl s e s1 h
  · intro num ttl s s1 h
    unfold LockNum at h
    simp only at h
    split at h
    · simp at h
    · rename_i r s2 heq
      simp only [Prod.mk.injEq, Except.ok.injEq, decide_eq_false_iff_not] at h
      exact ⟨r, h.1, by rw [heq, h.2]⟩
  · intro s e s1 h
    simp only [UnLock, h]
  · intro ttl j s e s1 hden hfail fuel hfuel
    exact waitLoop_error lock _ j s e s1 hden (Lock_error lock _ ttl _ e s1 hfail) fuel hfuel
  · intro num ttl j s e s1 hden hfail fuel hfuel
    exact waitLoop_error lock _ j s e s1 hden (LockNum_error lock _ num ttl _ e s1 hfail)
      fuel hfuel
  · intro ttl fuel s s1 h
    exact waitLoop_ok lock _ fuel s s1 h
  · intro num ttl fuel s s1 h
    exact waitLoop_ok lock _ fuel s s1 h

/-- A store that answers "held" twice and then refuses the connection: `Lock`
fails on the third call, and `LockWait` ends with that failure at its third
attempt, after three calls. -/
theorem store_failure_propagates_witness :
    Lock ⟨flakyRedis 2, "test"⟩ "job1" (8 * Second) 2 = (.error "connection refused", 3) ∧
      LockWait ⟨flakyRedis 2, "test"⟩ "job1" (8 * Second) 10 0
        = some (.error "connection refused", 3) :=
  ⟨(store_failure_propagates ⟨flakyRedis 2, "test"⟩ "job1").1 (8 * Second) 2
      "connection refused" 3 rfl,
   (store_failure_propagates ⟨flakyRedis 2, "test"⟩ "job1").2.2.2.2.2.1 (8 * Second) 2 0
      "connection refused" 3
      (by
        intro i hi
        have hi2 : i = 0 ∨ i = 1 := by omega
        rcases hi2 with rfl | rfl <;> rfl)
      rfl 10 (by decide)⟩

end Lockutil

namespace Lockutil

/-! ## The key that each operation uses -/

/-- On a prefix and a key without `%`, `FormatKey` is the concatenation. -/
theorem FormatKey_no_percent {σ : Type} (lock : RedisDistributedLock σ) (key : String)
    (h : '%' ∉ (lock.Prefix ++ key).data) : FormatKey lock key = lock.Prefix ++ key :=
  Fmt.Sprintf_no_percent _ h

/-- The key `LockWait` and `LockNumWait` hand to the store carries the prefix
twice, whatever text has no `%`. -/
theorem FormatKey_twice {σ : Type} (lock : RedisDistributedLock σ) (key : String)
    (h : '%' ∉ (lock.Prefix ++ key).data) :
    FormatKey lock (FormatKey lock key) = lock.Prefix ++ (lock.Prefix ++ key) := by
  rw [FormatKey_no_percent lock key h]
  apply FormatKey_no_percent
  simp only [String.data_append, List.mem_append] at h ⊢
  tauto

set_option maxRecDepth 100000 in
/-- C3 at prefix `test`, key `job1`, ttl 8 s, on the empty store. `Lock` and
`UnLock` use the key `testjob1`; `LockWait` returns after writing the record
under `testtestjob1` and leaves `testjob1` absent, so the `Lock` that follows is
granted, where the claim has it denied. `LockNumWait` with capacity 1 does the
same, and the `LockNum` that follows is granted although the one permit is
taken. -/
theorem lockwait_formats_key_twice :
    FormatKey (coordinator "test") "job1" = "testjob1" ∧
      FormatKey (coordinator "test") (FormatKey (coordinator "test") "job1") = "testtestjob1" ∧
      (LockWait (coordinator "test") "job1" (8 * Second) 1 ⟨emptyStore, 0⟩).map
          (fun r => (r.1, r.2.store "testtestjob1", r.2.store "testjob1",
            (Lock (coordinator "test") "job1" (8 * Second) r.2).1))
        = some (.ok (), some ⟨.int 1, some 8000000000⟩, none, .ok true) ∧
      (LockNumWait (coordinator "test") "job1" 1 (8 * Second) 1 ⟨emptyStore, 0⟩).map
          (fun r => (r.1, r.2.store "testtestjob1", r.2.store "testjob1",
            (LockNum (coordinator "test") "job1" 1 (8 * Second) r.2).1))
        = some (.ok (), some ⟨.int 0, some 8000000000⟩, none, .ok true) :=
  ⟨by decide, by decide, by decide, by decide⟩

set_option maxRecDepth 100000 in
/-- C6 at prefixes `a` and `aa`, key `x`, ttl 8 s, on the empty store. The
second coordinator alone is granted `Lock(x)`; after the first coordinator has
called `LockWait(x)`, which writes the record under `aax`, the second one is
denied. The same holds for `LockNumWait` and `LockNum` with capacity 1. -/
theorem isolation_broken_by_wait :
    ("a" : String) ≠ "aa" ∧
      (Lock (coordinator "aa") "x" (8 * Second) ⟨emptyStore, 0⟩).1 = .ok true ∧
      (LockWait (coordinator "a") "x" (8 * Second) 1 ⟨emptyStore, 0⟩).map
          (fun r => (r.1, (Lock (coordinator "aa") "x" (8 * Second) r.2).1))
        = some (.ok (), .ok false) ∧
      (LockNum (coordinator "aa") "x" 1 (8 * Second) ⟨emptyStore, 0⟩).1 = .ok true ∧
      (LockNumWait (coordinator "a") "x" 1 (8 * Second) 1 ⟨emptyStore, 0⟩).map
          (fun r => (r.1, (LockNum (coordinator "aa") "x" 1 (8 * Second) r.2).1))
        = some (.ok (), .ok false) := by
  decide

/-- C7 at keys that contain `%`: the concatenation is read as a format, so
`hi%d` comes out as `hi%!d(MISSING)`, a trailing `%` as `%!(NOVERB)` and `%%` as
a single `%`; none of them is the prefix followed by the key. -/
theorem formatkey_reads_percent :
    FormatKey (coordinator "test") "hi%d" = "testhi%!d(MISSING)" ∧
      FormatKey (coordinator "test") "hi%d" ≠ "test" ++ "hi%d" ∧
      FormatKey (coordinator "test") "100%" = "test100%!(NOVERB)" ∧
      FormatKey (coordinator "") "%%" = "%" := by
  decide

end Lockutil

